import Mathlib

/-!
Verification development for the pedarProbe node-tree core
(`pedarProbe/node.py`, `pedarProbe/analyse.py`).

The Python code is shallowly embedded as follows.

* A pandas `DataFrame` holding a stance's sensor readings is modelled
  column-major: a time index (list of rationals) together with a list of
  named columns, each a list of cell values.  Numeric values are modelled
  as rationals (exact real arithmetic); pandas `NaN` cells arising from
  outer joins are modelled as `Option` `none`.
* A pandas `Series` (per-channel result of a leaf statistic) is an
  insertion-ordered association list from channel name to optional value.
* Python `dict`s (a node's branch mapping, its `attribute` dictionary and
  the `loc_map` dictionary) are insertion-ordered association lists with
  `dictGet`/`dictSet` mirroring `d[k]` and `d[k] = v`.
* Every node created through `setup` aliases the one module-level
  `default_loc_map` dictionary (`self.loc_map = default_loc_map` in
  `DynamicNode.setup`, no copy).  The embedding therefore models the heap
  cell holding that shared dictionary explicitly: functions that read or
  write `loc_map` take the current shared dictionary as an argument and
  return its updated value.  A node carries no `loc_map` field of its own.
* Python exceptions are modelled with `Except`: `IndexError` from
  out-of-range positional indexing, `KeyError` from a missing dictionary
  key, `AttributeError` from accessing `df`/`start`/`end` on a node that
  is not a `DataNode`.  The error names `duplicateBranchError`,
  `channelMismatchError` and `insufficientSamplesError` that the
  specification postulates are included as constructors so that claims
  about them can be stated; the embedded code never produces them, as the
  Python source defines no such exception classes.
-/

/-- Errors a modelled operation can signal.  The first three correspond to
real Python exceptions; the last three are exception classes named by the
specification only, kept so that claims mentioning them can be stated.
`noneName` marks the modelling corner in `restructure` where a loc entry
already consumed (set to Python `None`) would be re-used as a branch name;
this can only happen when the requested layout repeats a level name. -/
inductive PErr where
  | indexError
  | keyError
  | attributeError
  | noneName
  | duplicateBranchError
  | channelMismatchError
  | insufficientSamplesError
deriving Repr, DecidableEq

/-- Convert an optional value into `Except`, signalling `e` on `none`. -/
def orErr : Option α → PErr → Except PErr α
  | some a, _ => .ok a
  | none, e => .error e

/-- A pandas data frame, column-major: `index` is the time index, `cols`
maps each sensor/channel name to its column of cell values (each column is
meant to have the same length as `index`). -/
structure DataFrame where
  index : List ℚ
  cols : List (String × List ℚ)
deriving Repr, DecidableEq

/-- The raw payload of a `DataNode` leaf: the sliced data frame together
with the stance's start and end times (`DataNode.setup`'s `df`, `start`,
`end` attributes; `end` is a Lean keyword, hence `stop`). -/
structure LeafData where
  df : DataFrame
  start : ℚ
  stop : ℚ
deriving Repr, DecidableEq

/-- A per-channel result series (`pandas.core.series.Series`): channel
name to optional (possibly-NaN) value, in index order. -/
abbrev Series := List (String × Option ℚ)

/-- Python `d[k]` on an association-list dictionary: first (unique) match. -/
def dictGet : List (String × α) → String → Option α
  | [], _ => none
  | (k, v) :: r, key => if k = key then some v else dictGet r key

/-- Python `d[k] = v`: update the existing entry in place, else append. -/
def dictSet : List (String × α) → String → α → List (String × α)
  | [], key, v => [(key, v)]
  | (k, w) :: r, key, v => if k = key then (key, v) :: r else (k, w) :: dictSet r key v

/-- A node of the tree (`Node`/`DynamicNode`/`PedarNode`/`DataNode` are
unified: `attr` models `PedarNode.attribute`, `data` is `some` exactly for
`DataNode` leaves, `source` models the back-reference set by
`set_source` — recorded as the source node's `loc` at the time of the
call, standing in for the Python object reference). Branch nodes are kept
as a list in dictionary insertion order; the dictionary key of a branch is
its `name` (as `add_branch` enforces). -/
inductive PNode : Type where
  | mk (name : String) (level : Nat) (loc : List String)
       (attr : List (String × Series)) (branches : List PNode)
       (data : Option LeafData) (source : Option (List String))

/-- Node name accessor. -/
def PNode.name : PNode → String
  | .mk n _ _ _ _ _ _ => n

/-- Node level accessor. -/
def PNode.level : PNode → Nat
  | .mk _ l _ _ _ _ _ => l

/-- Node loc accessor. -/
def PNode.loc : PNode → List String
  | .mk _ _ lc _ _ _ _ => lc

/-- Node attribute-dictionary accessor. -/
def PNode.attr : PNode → List (String × Series)
  | .mk _ _ _ a _ _ _ => a

/-- Branch dictionary accessor (`Node.branches()` in insertion order). -/
def PNode.branches : PNode → List PNode
  | .mk _ _ _ _ bs _ _ => bs

/-- Leaf payload accessor (`some` exactly for `DataNode`s). -/
def PNode.data : PNode → Option LeafData
  | .mk _ _ _ _ _ d _ => d

/-- Source back-reference accessor. -/
def PNode.source : PNode → Option (List String)
  | .mk _ _ _ _ _ _ s => s

/-- `Node.setup` through `PedarNode.setup`: name, level 0, `loc = [name]`,
empty attribute dictionary, no branches, no data. -/
def pedar_setup (name : String) : PNode :=
  .mk name 0 [name] [] [] none none

/-- `DataNode.setup`: as `pedar_setup` plus the `df`/`start`/`end` payload. -/
def data_setup (name : String) (ld : LeafData) : PNode :=
  .mk name 0 [name] [] [] (some ld) none

/-- `Node.is_leaf`: true iff the branch dictionary is empty. -/
def PNode.is_leaf (t : PNode) : Bool :=
  t.branches.isEmpty

/-- The field update performed on the added branch inside
`Node.add_branch` (lines 120-123 of `node.py`): `set_source(self)`, then
`loc = deepcopy(self.loc); loc.append(name)`, then
`level = len(loc) - 1`. -/
def stampChild (self branch : PNode) : PNode :=
  .mk branch.name ((self.loc ++ [branch.name]).length - 1)
     (self.loc ++ [branch.name]) branch.attr branch.branches branch.data
     (some self.loc)

/-- `Node.add_branch`: if the name is already a branch key, print a
warning and return with no mutation (modelled by the `true` flag);
otherwise append the stamped child.  The function never raises — the
`Except` type records that every Python exception would surface as
`.error`, and `add_branch` always returns `.ok`. -/
def add_branch (self branch : PNode) : Except PErr (PNode × Bool) :=
  if self.branches.any (fun b => b.name = branch.name) then
    .ok (self, true)
  else
    .ok (.mk self.name self.level self.loc self.attr
            (self.branches ++ [stampChild self branch]) self.data self.source, false)

/-- `Node.clean_copy`: a fresh node (via `setup`) with the original's
`name`, `loc` and `level`, no branches, no attributes, no data. -/
def clean_copy (t : PNode) : PNode :=
  .mk t.name t.level t.loc [] [] none none

/-- `Node.collect_leaf` with the accumulator elided: the Python method
only ever appends, so `collect_leaf(self, nodes)` returns
`nodes ++ collect_leaf self`. -/
def collect_leaf (t : PNode) : List PNode :=
  if t.branches.isEmpty then [t]
  else t.branches.attach.flatMap (fun b => collect_leaf b.1)
termination_by sizeOf t
decreasing_by
  obtain ⟨b, hb⟩ := b
  cases t with
  | mk n l lc a bs d s =>
    simp only [PNode.branches] at hb
    have := List.sizeOf_lt_of_mem hb
    simp only [PNode.mk.sizeOf_spec]
    omega

/-- `pandas.Series.max` / per-column `DataFrame.max`: maximum of a column,
NaN (`none`) for an empty column. -/
def colMax : List ℚ → Option ℚ
  | [] => none
  | x :: xs => some (xs.foldl max x)

/-- `analyse.sensor_peak`: `node.df.max()` — per-channel maximum over the
time window.  It cannot raise; the `Except` type is shared with the other
leaf statistics (`attr_func` slot of `attribute_average_up`). -/
def sensor_peak (ld : LeafData) : Except PErr Series :=
  .ok (ld.df.cols.map (fun c => (c.1, colMax c.2)))

/-- `analyse.sensor_pti`: `time_unit = df.index[1] - df.index[0]`,
`pti = (df * time_unit).sum()`.  Positional indexing out of range raises
`IndexError` (`index[1]` is evaluated first). -/
def sensor_pti (ld : LeafData) : Except PErr Series := do
  let t1 ← orErr ld.df.index[1]? .indexError
  let t0 ← orErr ld.df.index[0]? .indexError
  let u := t1 - t0
  .ok (ld.df.cols.map (fun c => (c.1, some ((c.2.map (fun v => v * u)).sum))))

/-- Index union for `pd.concat(axis=1)`: keys in order of first
appearance across the concatenated series (pandas outer join,
`sort=False` default). -/
def keyUnion (ss : List Series) : List String :=
  (ss.flatMap (fun s => s.map Prod.fst)).foldl
    (fun acc k => if k ∈ acc then acc else acc ++ [k]) []

/-- `pd.concat(branch_attribute_list, axis=1)`: outer join on the union
of the indexes; a series lacking a key (or carrying NaN there)
contributes `none` in that row. -/
def pd_concat (ss : List Series) : List (String × List (Option ℚ)) :=
  (keyUnion ss).map (fun k => (k, ss.map (fun s => (dictGet s k).join)))

/-- `DataFrame.mean(axis=1)` for one row: skip NaN entries, NaN if all
entries are NaN (pandas `skipna=True` default). -/
def nanMean (row : List (Option ℚ)) : Option ℚ :=
  let xs := row.filterMap id
  if xs.length = 0 then none else some (xs.sum / xs.length)

/-- `pd.concat(..., axis=1).mean(axis=1)` — the combination step of
`attribute_average_up` at a non-leaf node. -/
def concat_mean (ss : List Series) : Series :=
  (pd_concat ss).map (fun kr => (kr.1, nanMean kr.2))

mutual

/-- `analyse.attribute_average_up`: at a leaf, store `attr_func(node)` in
the node's attribute dictionary under `attr_name` (`node.df` raises
`AttributeError` when the leaf holds no data frame); at a non-leaf,
recurse into every branch, collect each branch's stored attribute, and
store the per-row mean of their outer-join concatenation. -/
def attribute_average_up (node : PNode) (attr_name : String)
    (attr_func : LeafData → Except PErr Series) : Except PErr PNode :=
  if node.branches.isEmpty then do
    let ld ← orErr node.data .attributeError
    let v ← attr_func ld
    .ok (.mk node.name node.level node.loc (dictSet node.attr attr_name v)
            node.branches node.data node.source)
  else do
    let pairs ← aau_branches node.branches attr_name attr_func
    .ok (.mk node.name node.level node.loc
            (dictSet node.attr attr_name (concat_mean (pairs.map Prod.snd)))
            (pairs.map Prod.fst) node.data node.source)
termination_by sizeOf node
decreasing_by
  cases node with
  | mk n l lc a bs d s =>
    simp only [PNode.branches, PNode.mk.sizeOf_spec]
    omega

/-- The `for branch in node.branches()` loop of `attribute_average_up`:
recursively process each branch, then read back
`branch.attribute[attr_name]` (a missing key would raise `KeyError`).
Returns the updated branches paired with their collected series. -/
def aau_branches (l : List PNode) (attr_name : String)
    (attr_func : LeafData → Except PErr Series) : Except PErr (List (PNode × Series)) :=
  match l with
  | [] => .ok []
  | b :: bs => do
      let b' ← attribute_average_up b attr_name attr_func
      let v ← orErr (dictGet b'.attr attr_name) .keyError
      let rest ← aau_branches bs attr_name attr_func
      .ok ((b', v) :: rest)
termination_by sizeOf l
decreasing_by all_goals (simp only [List.cons.sizeOf_spec]; omega)

end

/-- The shared loc-map dictionary type: layer name to depth index. -/
abbrev LocMap := List (String × Nat)

/-- The module-level `default_loc_map` dictionary of `node.py`.  Every
node's `setup` aliases this single object. -/
def default_loc_map : LocMap :=
  [("root", 0), ("subject", 1), ("condition", 2), ("trail", 3), ("foot", 4), ("stance", 5)]

/-- The assignment loop of `change_loc_map`:
`for idx in range(len(layout)): loc_map[layout[idx]] = start_index + idx`. -/
def assignLayers (start : Nat) : LocMap → List String → Nat → LocMap
  | m, [], _ => m
  | m, l :: ls, i => assignLayers start (dictSet m l (start + i)) ls (i + 1)

/-- `DynamicNode.change_loc_map`: delete every entry whose depth is
`≥ start_level`, then assign `layout[idx] ↦ start_level + idx` in order.
In Python this mutates the shared `loc_map` dictionary in place; here the
updated dictionary is returned. -/
def change_loc_map (m : LocMap) (start_level : Nat) (layout : List String) : LocMap :=
  assignLayers start_level (m.filter (fun kv => kv.2 < start_level)) layout 0

/-- The loop `for id in range(self.level + 1): loc[id] = None` over the
deep-copied leaf loc at the start of each `restructure` iteration;
`IndexError` when the loc is shorter than `self.level + 1`. -/
def maskLoc (loc : List String) (lvl : Nat) : Except PErr (List (Option String)) :=
  if loc.length < lvl + 1 then .error .indexError
  else .ok ((loc.take (lvl + 1)).map (fun _ => (none : Option String))
            ++ (loc.drop (lvl + 1)).map some)

/-- Dictionary access `current_node[name]` on the branch list, returning
the position together with the branch (Python dict keys are unique, so
the first match is the entry). -/
def findChildIdx : List PNode → String → Option (Nat × PNode)
  | [], _ => none
  | b :: bs, nm =>
      if b.name = nm then some (0, b)
      else (findChildIdx bs nm).map (fun ic => (ic.1 + 1, ic.2))

/-- The per-leaf body of `DynamicNode.restructure` (lines 440-463): walk
the middle entries of the layout, reading for each layer the branch name
out of the masked loc at the position the *shared, already rebound*
loc map gives (`loc[leaf.loc_map[layer]]`), consuming that entry;
create-or-reuse the branch node (creation runs `setup`,
`change_loc_map` on the shared dictionary, then `add_branch`, whose
duplicate guard is false here, i.e. append the stamped child); finally
join the unconsumed loc entries into the new leaf's name and
`add_branch` the new `DataNode` (duplicate names are warned about and
skipped).  The state pair is (current node of the new tree, shared
loc-map dictionary). -/
def walkInsert (lvl : Nat) (layout : List String) (dataOpt : Option LeafData) :
    List String → PNode → List (Option String) → LocMap → Except PErr (PNode × LocMap)
  | [], current, mloc, sh => do
      let leafName := String.intercalate " - " (mloc.filterMap id)
      let ld ← orErr dataOpt .attributeError
      let leafN := data_setup leafName ld
      let sh1 := change_loc_map sh lvl layout
      let r ← add_branch current leafN
      .ok (r.1, sh1)
  | layer :: rest, current, mloc, sh => do
      let idx ← orErr (dictGet sh layer) .keyError
      let oname ← orErr mloc[idx]? .indexError
      let nm ← orErr oname .noneName
      let mloc1 := mloc.set idx none
      match findChildIdx current.branches nm with
      | some ic => do
          let r ← walkInsert lvl layout dataOpt rest ic.2 mloc1 sh
          .ok (.mk current.name current.level current.loc current.attr
                  (current.branches.set ic.1 r.1) current.data current.source, r.2)
      | none => do
          let sh1 := change_loc_map sh lvl layout
          let b := stampChild current (pedar_setup nm)
          let r ← walkInsert lvl layout dataOpt rest b mloc1 sh1
          .ok (.mk current.name current.level current.loc current.attr
                  (current.branches ++ [r.1]) current.data current.source, r.2)

/-- `DynamicNode.restructure`: collect the leaves, seed the new tree with
`clean_copy`, rebind the (shared) loc map, then insert every leaf.  The
shared `default_loc_map`-aliased dictionary is threaded as state and its
final value returned alongside the new tree — in Python it is the very
dictionary every source-tree node's `loc_map` attribute points to. -/
def restructure (self : PNode) (layout : List String) (sh : LocMap) :
    Except PErr (PNode × LocMap) :=
  let leaf_nodes := collect_leaf self
  let new0 := clean_copy self
  let sh1 := change_loc_map sh self.level layout
  let layoutMid := (layout.drop 1).dropLast
  leaf_nodes.foldlM (fun acc leaf => do
      let mloc ← maskLoc leaf.loc self.level
      walkInsert self.level layout leaf.data layoutMid acc.1 mloc acc.2)
    (new0, sh1)

/-- Boolean test that `p` is a (not necessarily proper) leading segment of
`q` — the ancestor-or-equal relation on relative paths. -/
def isAncPath : List String → List String → Bool
  | [], _ => true
  | _ :: _, [] => false
  | a :: p, b :: q => a = b && isAncPath p q

/-- Two relative paths are incomparable: neither is a leading segment of
the other.  Distinct leaves of a tree always have incomparable paths. -/
def incomp (p q : List String) : Prop :=
  isAncPath p q = false ∧ isAncPath q p = false

/-- The composite relative path `restructure` files a leaf under, read
off the leaf's `loc`: with the source root at level `lvl` and `m` middle
entries in the new layout, the branch names are the `m` loc entries just
below the root and the new leaf's name joins the remainder with " - ". -/
def compositeOf (lvl m : Nat) (loc : List String) : List String :=
  (loc.drop (lvl + 1)).take m
    ++ [String.intercalate " - " (loc.drop (lvl + 1 + m))]

/-- The leaves of a tree as (relative path from this node, payload)
pairs, in `collect_leaf` order.  A childless node is its own single leaf
with the empty relative path. -/
def leafPathsD (t : PNode) : List (List String × Option LeafData) :=
  if t.branches.isEmpty then [([], t.data)]
  else t.branches.attach.flatMap
    (fun b => (leafPathsD b.1).map (fun pd => (b.1.name :: pd.1, pd.2)))
termination_by sizeOf t
decreasing_by
  obtain ⟨b, hb⟩ := b
  cases t with
  | mk n l lc a bs d s =>
    simp only [PNode.branches] at hb
    have := List.sizeOf_lt_of_mem hb
    simp only [PNode.mk.sizeOf_spec]
    omega

/-- The pure tree-building effect of one `restructure` iteration once the
branch names and leaf name have been extracted: walk `names`
creating-or-reusing branch nodes, then `add_branch` the new data leaf
(warn-and-skip on a duplicate leaf name, as in `add_branch`). -/
def insertPure : PNode → List String → String → LeafData → PNode
  | cur, [], lfName, ld =>
      if cur.branches.any (fun b => b.name = lfName) then cur
      else .mk cur.name cur.level cur.loc cur.attr
              (cur.branches ++ [stampChild cur (data_setup lfName ld)])
              cur.data cur.source
  | cur, nm :: rest, lfName, ld =>
      match findChildIdx cur.branches nm with
      | some ic =>
          .mk cur.name cur.level cur.loc cur.attr
             (cur.branches.set ic.1 (insertPure ic.2 rest lfName ld))
             cur.data cur.source
      | none =>
          .mk cur.name cur.level cur.loc cur.attr
             (cur.branches ++ [insertPure (stampChild cur (pedar_setup nm)) rest lfName ld])
             cur.data cur.source

/-- All nodes of a tree, the node itself first (pre-order). -/
def allNodes (t : PNode) : List PNode :=
  t :: t.branches.attach.flatMap (fun b => allNodes b.1)
termination_by sizeOf t
decreasing_by
  obtain ⟨b, hb⟩ := b
  cases t with
  | mk n l lc a bs d s =>
    simp only [PNode.branches] at hb
    have := List.sizeOf_lt_of_mem hb
    simp only [PNode.mk.sizeOf_spec]
    omega

/-- Trees reachable through the public construction API: a node freshly
initialised by `Node.setup`/`PedarNode.setup`, a leaf initialised by
`DataNode.setup`, or a tree extended by a successful `add_branch` of a
built node onto a built node. -/
inductive Built : PNode → Prop where
  | setup (name : String) : Built (pedar_setup name)
  | dataSetup (name : String) (ld : LeafData) : Built (data_setup name ld)
  | grow (p c pp : PNode) : Built p → Built c →
      add_branch p c = .ok (pp, false) → Built pp

/-- Stated from the specification's wording for the amended channel
policy: the value of a channel at the parent is the arithmetic mean of
the values of exactly those children that carry the channel (missing
channels and NaN entries are skipped; NaN when no child carries it). -/
def specMeanOverPresent (ss : List Series) (k : String) : Option ℚ :=
  let xs := ss.filterMap (fun s => (dictGet s k).join)
  if xs.length = 0 then none else some (xs.sum / xs.length)

/-- Navigate from a node down a list of branch names. -/
def nodeAt : PNode → List String → Option PNode
  | t, [] => some t
  | t, nm :: rest =>
      match findChildIdx t.branches nm with
      | some ic => nodeAt ic.2 rest
      | none => none

/-- Read the attribute dictionary entry `a` of the node at `path` below
the root of an aggregation result. -/
def attrAt (r : Except PErr PNode) (path : List String) (a : String) : Option Series :=
  (r.toOption.bind (fun t => nodeAt t path)).bind (fun n => dictGet n.attr a)

/-- Single-row data frame for leaf `A` of the aggregation scenario. -/
def df_A : DataFrame := ⟨[0], [("c1", [10]), ("c2", [20])]⟩

/-- Single-row data frame for leaf `B` of the aggregation scenario. -/
def df_B : DataFrame := ⟨[0], [("c1", [30]), ("c2", [40])]⟩

/-- Payload of leaf `A`. -/
def ld_A : LeafData := ⟨df_A, 0, 1⟩

/-- Payload of leaf `B`. -/
def ld_B : LeafData := ⟨df_B, 0, 1⟩

/-- The concrete tree of the aggregation scenario: root `R` with leaf
children `A` and `B`. -/
def tree_C1 : PNode :=
  .mk "R" 0 ["R"] []
    [.mk "A" 1 ["R", "A"] [] [] (some ld_A) (some ["R"]),
     .mk "B" 1 ["R", "B"] [] [] (some ld_B) (some ["R"])] none none

/-- A small distinct payload. -/
def ld_1 : LeafData := ⟨⟨[0], [("c", [1])]⟩, 0, 1⟩

/-- Another small distinct payload. -/
def ld_2 : LeafData := ⟨⟨[0], [("c", [2])]⟩, 0, 1⟩

/-- Source tree for the leaf-preservation counterexample: one leaf is
named `"a - b"`, a second leaf sits at `a → b`; under a layout that
compresses everything below the root both produce the composite leaf
name `"a - b"`. -/
def tree_C2 : PNode :=
  .mk "root" 0 ["root"] []
    [.mk "a - b" 1 ["root", "a - b"] [] [] (some ld_1) (some ["root"]),
     .mk "a" 1 ["root", "a"] []
        [.mk "b" 2 ["root", "a", "b"] [] [] (some ld_2) (some ["root", "a"])]
        none (some ["root"])] none none

/-- One-leaf source tree used for the loc-map mutation scenario and as a
restructuring witness input. -/
def tree_C3 : PNode :=
  .mk "root" 0 ["root"] []
    [.mk "S1" 1 ["root", "S1"] [] [] (some ld_1) (some ["root"])] none none

/-- A node that already has a branch named `"stance 1"` (which itself
carries a subtree). -/
def tree_C4 : PNode :=
  .mk "N" 0 ["N"] []
    [.mk "stance 1" 1 ["N", "stance 1"] []
       [.mk "sub" 2 ["N", "stance 1", "sub"] [] [] (some ld_1)
          (some ["N", "stance 1"])] none (some ["N"])] none none

/-- A freshly set-up second node also named `"stance 1"`. -/
def dup_C4 : PNode := pedar_setup "stance 1"

/-- The 3-level tree `root → subjectA → conditionX → trial1` of the
restructuring scenario. -/
def tree_C5 : PNode :=
  .mk "root" 0 ["root"] []
    [.mk "subjectA" 1 ["root", "subjectA"] []
       [.mk "conditionX" 2 ["root", "subjectA", "conditionX"] []
          [.mk "trial1" 3 ["root", "subjectA", "conditionX", "trial1"] [] []
             (some ld_1) (some ["root", "subjectA", "conditionX"])]
          none (some ["root", "subjectA"])]
       none (some ["root"])] none none

/-- The PTI scenario leaf: time index `[0, 0.01, 0.02]`, one channel with
values `[1, 2, 3]`. -/
def ld_C7 : LeafData := ⟨⟨[0, 1/100, 2/100], [("c", [1, 2, 3])]⟩, 0, 2/100⟩

/-- Leaf `A` of the channel-mismatch scenario: channel set `{c1}` only. -/
def ld_A8 : LeafData := ⟨⟨[0], [("c1", [10])]⟩, 0, 1⟩

/-- Channel-mismatch scenario: sibling leaves with channel sets `{c1}`
and `{c1, c2}`. -/
def tree_C8 : PNode :=
  .mk "R" 0 ["R"] []
    [.mk "A" 1 ["R", "A"] [] [] (some ld_A8) (some ["R"]),
     .mk "B" 1 ["R", "B"] [] [] (some ld_B) (some ["R"])] none none

/-- A leaf payload with a single time sample (too short for PTI). -/
def ld_C9 : LeafData := ⟨⟨[0], [("c", [5])]⟩, 0, 1⟩

/-- A tree containing the too-short leaf. -/
def tree_C9 : PNode :=
  .mk "R" 0 ["R"] []
    [.mk "L" 1 ["R", "L"] [] [] (some ld_C9) (some ["R"])] none none

/-- The weighting scenario: root with a leaf child `A` of per-channel
value `a` and a branch child `B` whose two leaves hold `b1` and `b2`. -/
def tree_C10 (a b1 b2 : ℚ) : PNode :=
  .mk "R" 0 ["R"] []
    [.mk "A" 1 ["R", "A"] [] [] (some ⟨⟨[0], [("c", [a])]⟩, 0, 1⟩) (some ["R"]),
     .mk "B" 1 ["R", "B"] []
        [.mk "B1" 2 ["R", "B", "B1"] [] [] (some ⟨⟨[0], [("c", [b1])]⟩, 0, 1⟩)
           (some ["R", "B"]),
         .mk "B2" 2 ["R", "B", "B2"] [] [] (some ⟨⟨[0], [("c", [b2])]⟩, 0, 1⟩)
           (some ["R", "B"])] none (some ["R"])] none none

theorem ok_bind (a : α) (f : α → Except PErr β) :
    (Except.ok a : Except PErr α) >>= f = f a := rfl

theorem error_bind (e : PErr) (f : α → Except PErr β) :
    (Except.error e : Except PErr α) >>= f = .error e := rfl

theorem pure_eq_ok (a : α) : (pure a : Except PErr α) = .ok a := rfl

/-- Unfolding equation for `collect_leaf` without the `attach` plumbing. -/
theorem collect_leaf_eq (t : PNode) :
    collect_leaf t = if t.branches.isEmpty then [t]
      else t.branches.flatMap collect_leaf := by
  rw [collect_leaf]
  simp [List.flatMap, List.attach, List.attachWith, List.map_pmap]

/-- Unfolding equation for `leafPathsD` without the `attach` plumbing. -/
theorem leafPathsD_eq (t : PNode) :
    leafPathsD t = if t.branches.isEmpty then [([], t.data)]
      else t.branches.flatMap
        (fun b => (leafPathsD b).map (fun pd => (b.name :: pd.1, pd.2))) := by
  rw [leafPathsD]
  simp [List.flatMap, List.attach, List.attachWith, List.map_pmap]

/-- Unfolding equation for `allNodes` without the `attach` plumbing. -/
theorem allNodes_eq (t : PNode) :
    allNodes t = t :: t.branches.flatMap allNodes := by
  rw [allNodes]
  simp [List.flatMap, List.attach, List.attachWith, List.map_pmap]

/-- `attribute_average_up` at a childless node, in rewrite-friendly form. -/
theorem aau_nil (n : String) (l : Nat) (lc : List String) (a0 : List (String × Series))
    (d : Option LeafData) (s : Option (List String)) (a : String)
    (f : LeafData → Except PErr Series) :
    attribute_average_up (.mk n l lc a0 [] d s) a f =
      (orErr d .attributeError) >>= fun ld => (f ld) >>= fun v =>
        .ok (.mk n l lc (dictSet a0 a v) [] d s) := by
  rw [attribute_average_up]
  simp only [PNode.branches, List.isEmpty_nil, if_true, PNode.data, PNode.name,
    PNode.level, PNode.loc, PNode.attr, PNode.source]

/-- `attribute_average_up` at a node with branches, in rewrite-friendly form. -/
theorem aau_cons (n : String) (l : Nat) (lc : List String) (a0 : List (String × Series))
    (b : PNode) (bs : List PNode) (d : Option LeafData) (s : Option (List String))
    (a : String) (f : LeafData → Except PErr Series) :
    attribute_average_up (.mk n l lc a0 (b :: bs) d s) a f =
      (aau_branches (b :: bs) a f) >>= fun pairs =>
        .ok (.mk n l lc (dictSet a0 a (concat_mean (pairs.map Prod.snd)))
              (pairs.map Prod.fst) d s) := by
  rw [attribute_average_up]
  simp only [PNode.branches, List.isEmpty_cons, Bool.false_eq_true, if_false,
    PNode.name, PNode.level, PNode.loc, PNode.attr, PNode.data, PNode.source]

theorem aaub_nil (a : String) (f : LeafData → Except PErr Series) :
    aau_branches [] a f = .ok [] := by
  rw [aau_branches]

theorem aaub_cons (b : PNode) (bs : List PNode) (a : String)
    (f : LeafData → Except PErr Series) :
    aau_branches (b :: bs) a f =
      (attribute_average_up b a f) >>= fun bb =>
      (orErr (dictGet bb.attr a) .keyError) >>= fun v =>
      (aau_branches bs a f) >>= fun rest =>
      .ok ((bb, v) :: rest) := by
  rw [aau_branches]

/-- `attribute_average_up` at a childless node, stated for an un-destructured
node value. -/
theorem aau_leaf_general (n : PNode) (h : n.branches = []) (a : String)
    (f : LeafData → Except PErr Series) :
    attribute_average_up n a f =
      (orErr n.data .attributeError) >>= fun ld => (f ld) >>= fun v =>
        .ok (.mk n.name n.level n.loc (dictSet n.attr a v) [] n.data n.source) := by
  cases n with
  | mk nm l lc a0 bs d s =>
    simp only [PNode.branches] at h
    subst h
    rw [aau_nil]
    simp only [PNode.name, PNode.level, PNode.loc, PNode.attr, PNode.data, PNode.source]

/-- `attribute_average_up` at a branching node, stated for an
un-destructured node value. -/
theorem aau_cons_general (n : PNode) (b : PNode) (bs : List PNode)
    (h : n.branches = b :: bs) (a : String) (f : LeafData → Except PErr Series) :
    attribute_average_up n a f =
      (aau_branches (b :: bs) a f) >>= fun pairs =>
        .ok (.mk n.name n.level n.loc
              (dictSet n.attr a (concat_mean (pairs.map Prod.snd)))
              (pairs.map Prod.fst) n.data n.source) := by
  cases n with
  | mk nm l lc a0 bs0 d s =>
    simp only [PNode.branches] at h
    subst h
    rw [aau_cons]
    simp only [PNode.name, PNode.level, PNode.loc, PNode.attr, PNode.data, PNode.source]

/-- A branch whose aggregation fails makes the whole branch loop fail. -/
theorem aaub_abort (l : List PNode) (a : String) (f : LeafData → Except PErr Series)
    (b : PNode) (hb : b ∈ l)
    (hf : (attribute_average_up b a f).isOk = false) :
    (aau_branches l a f).isOk = false := by
  induction l with
  | nil => cases hb
  | cons c cs ih =>
    rw [aaub_cons]
    rcases List.mem_cons.1 hb with h | h
    · subst h
      cases hx : attribute_average_up b a f with
      | error e => simp [hx, error_bind, Except.isOk, Except.toBool]
      | ok v => rw [hx] at hf; simp [Except.isOk, Except.toBool] at hf
    · cases hx : attribute_average_up c a f with
      | error e => simp [hx, error_bind, Except.isOk, Except.toBool]
      | ok bb =>
        simp only [hx, ok_bind]
        cases hy : orErr (dictGet bb.attr a) PErr.keyError with
        | error e => simp [hy, error_bind, Except.isOk, Except.toBool]
        | ok v =>
          simp only [hy, ok_bind]
          have hrest := ih h
          cases hz : aau_branches cs a f with
          | error e => simp [hz, error_bind, Except.isOk, Except.toBool]
          | ok rest => rw [hz] at hrest; simp [Except.isOk, Except.toBool] at hrest

/-- A leaf whose statistic computation fails aborts the whole aggregation:
`attribute_average_up` installs no exception handler, so the error
propagates to the top-level call. -/
theorem aau_abort (n : PNode) (a : String) (f : LeafData → Except PErr Series)
    (m : PNode) (hm : m ∈ collect_leaf n) (ld : LeafData) (hd : m.data = some ld)
    (hf : (f ld).isOk = false) :
    (attribute_average_up n a f).isOk = false := by
  rcases hbs : n.branches with _ | ⟨b, bs'⟩
  · rw [collect_leaf_eq, hbs] at hm
    simp only [List.isEmpty_nil, if_true, List.mem_singleton] at hm
    subst hm
    rw [aau_leaf_general m hbs, hd]
    simp only [orErr, ok_bind]
    cases hx : f ld with
    | error e => simp [error_bind, Except.isOk, Except.toBool]
    | ok v => rw [hx] at hf; simp [Except.isOk, Except.toBool] at hf
  · rw [collect_leaf_eq, hbs] at hm
    simp only [List.isEmpty_cons, Bool.false_eq_true, if_false] at hm
    obtain ⟨b', hb', hm'⟩ := List.mem_flatMap.1 hm
    have hb'' : b' ∈ n.branches := by rw [hbs]; exact hb'
    have hrec := aau_abort b' a f m hm' ld hd hf
    rw [aau_cons_general n b bs' hbs]
    have habort := aaub_abort (b :: bs') a f b' hb' hrec
    cases hz : aau_branches (b :: bs') a f with
    | error e => simp [error_bind, Except.isOk, Except.toBool]
    | ok rest => rw [hz] at habort; simp [Except.isOk, Except.toBool] at habort
termination_by sizeOf n
decreasing_by
  have h1 := List.sizeOf_lt_of_mem hb''
  cases n with
  | mk nm l lc a0 bs0 d s =>
    simp only [PNode.branches] at h1
    simp only [PNode.mk.sizeOf_spec]
    omega

set_option maxHeartbeats 1000000

/-- C1: for the concrete tree with root `R` and leaf children `A`
(`{c1: 10, c2: 20}`) and `B` (`{c1: 30, c2: 40}`), the up-averaging
aggregation with the peak leaf statistic stores at each leaf its own
per-channel maximum and at `R` the per-channel arithmetic mean across the
children, `{c1: 20, c2: 30}`. -/
theorem aggregation_scenario_means :
    attrAt (attribute_average_up tree_C1 "sensor_peak" sensor_peak) [] "sensor_peak"
      = some [("c1", some 20), ("c2", some 30)]
    ∧ attrAt (attribute_average_up tree_C1 "sensor_peak" sensor_peak) ["A"] "sensor_peak"
      = some [("c1", some 10), ("c2", some 20)]
    ∧ attrAt (attribute_average_up tree_C1 "sensor_peak" sensor_peak) ["B"] "sensor_peak"
      = some [("c1", some 30), ("c2", some 40)] := by
  have h : attribute_average_up tree_C1 "sensor_peak" sensor_peak =
      .ok (.mk "R" 0 ["R"] [("sensor_peak", [("c1", some 20), ("c2", some 30)])]
        [.mk "A" 1 ["R", "A"] [("sensor_peak", [("c1", some 10), ("c2", some 20)])] []
           (some ld_A) (some ["R"]),
         .mk "B" 1 ["R", "B"] [("sensor_peak", [("c1", some 30), ("c2", some 40)])] []
           (some ld_B) (some ["R"])] none none) := by
    simp only [tree_C1, aau_cons, aaub_cons, aaub_nil, aau_nil, ok_bind, error_bind,
      sensor_peak, colMax, orErr, ld_A, ld_B, df_A, df_B,
      PNode.attr, PNode.data, dictGet, dictSet,
      List.map_cons, List.map_nil, List.foldl_cons, List.foldl_nil]
    simp only [ok_bind, error_bind, concat_mean, pd_concat, keyUnion, nanMean,
      List.map_cons, List.map_nil, List.flatMap_cons, List.flatMap_nil,
      List.foldl_cons, List.foldl_nil, dictGet, dictSet]
    simp only [Bind.bind, Except.bind]
    simp [dictGet, ld_A, ld_B, df_A, df_B]
    norm_num
  refine ⟨?_, ?_, ?_⟩ <;> (rw [attrAt, h]; rfl)

/-- C7: whenever a leaf's table has at least two time samples, `sensor_pti`
succeeds, taking the sampling interval to be the difference between the
first two time indices and returning per channel the sum of the channel's
values times that interval. -/
theorem sensor_pti_interval_sum (ld : LeafData) (t0 t1 : ℚ) (rest : List ℚ)
    (h : ld.df.index = t0 :: t1 :: rest) :
    sensor_pti ld =
      .ok (ld.df.cols.map (fun c => (c.1, some (c.2.sum * (t1 - t0))))) := by
  rw [sensor_pti, h]
  simp only [List.getElem?_cons_succ, List.getElem?_cons_zero, orErr, ok_bind]
  congr 1
  refine List.map_congr_left (fun c _ => ?_)
  have hs : ∀ l : List ℚ, (List.map (fun v => v * (t1 - t0)) l).sum = l.sum * (t1 - t0) := by
    intro l
    induction l with
    | nil => simp
    | cons x xs ih => simp [ih]; ring
  rw [hs]

/-- C7 witness: the concrete PTI scenario — time index `[0, 0.01, 0.02]`,
values `[1, 2, 3]`, PTI `= 0.06`. -/
theorem sensor_pti_scenario : sensor_pti ld_C7 = .ok [("c", some (0.06 : ℚ))] := by
  have h := sensor_pti_interval_sum ld_C7 0 (1/100) [2/100] rfl
  rw [h]
  norm_num [ld_C7]

/-- C4 counterexample: adding a second `"stance 1"` child under a node
that already has one returns normally with a printed warning (flag `true`)
and the unchanged parent — it does not fail with `DuplicateBranchError`
(no such exception exists in the code). -/
theorem dup_add_counterexample :
    add_branch tree_C4 dup_C4 = .ok (tree_C4, true) ∧
    (Except.ok (tree_C4, true) : Except PErr (PNode × Bool)) ≠ .error .duplicateBranchError := by
  refine ⟨?_, by simp⟩
  simp [add_branch, tree_C4, dup_C4, pedar_setup, PNode.branches, PNode.name]

/-- C4 amended: adding a child whose name already exists among the current
branch names is rejected with a warning (no exception) and no mutation:
the parent — including the existing child and its entire subtree — is
returned exactly as it was. -/
theorem dup_add_amended (p c : PNode) (h : c.name ∈ p.branches.map PNode.name) :
    add_branch p c = .ok (p, true) := by
  rw [add_branch, if_pos]
  rw [List.any_eq_true]
  obtain ⟨nm, hmem, hn⟩ := List.mem_map.1 h
  exact ⟨nm, hmem, by simp [hn]⟩

/-- C4 witness: the amended statement applied to the concrete
`"stance 1"` scenario. -/
theorem dup_add_amended_witness : add_branch tree_C4 dup_C4 = .ok (tree_C4, true) :=
  dup_add_amended tree_C4 dup_C4 (by
    simp [tree_C4, dup_C4, pedar_setup, PNode.branches, PNode.name])

/-- C9 counterexample: on a leaf with a single time sample, `sensor_pti`
raises `IndexError` (out-of-range positional access on the time index),
not the specification's `InsufficientSamplesError`, and that `IndexError`
is what propagates out of the aggregation. -/
theorem pti_short_counterexample :
    sensor_pti ld_C9 = .error .indexError ∧
    (Except.error PErr.indexError : Except PErr Series) ≠ .error .insufficientSamplesError ∧
    attribute_average_up tree_C9 "sensor_pti" sensor_pti = .error .indexError := by
  have h1 : sensor_pti ld_C9 = .error .indexError := by
    rw [sensor_pti]
    simp [ld_C9, orErr, error_bind]
  refine ⟨h1, by simp, ?_⟩
  simp only [tree_C9, aau_cons, aaub_cons, aau_nil, orErr, ok_bind, PNode.data]
  simp only [Bind.bind, Except.bind]
  simp [h1]

/-- C9 amended: for every leaf table with fewer than 2 time samples,
computing the PTI statistic signals `IndexError` (not a dedicated
`InsufficientSamplesError`, which the code does not define), and the
error propagates up and aborts the aggregation of any tree containing
such a leaf — no placeholder value is substituted, the whole call fails. -/
theorem pti_short_amended (ld : LeafData) (hlen : ld.df.index.length < 2) :
    sensor_pti ld = .error .indexError ∧
    ∀ (n : PNode) (a : String), (∃ m ∈ collect_leaf n, m.data = some ld) →
      (attribute_average_up n a sensor_pti).isOk = false := by
  have h1 : sensor_pti ld = .error .indexError := by
    rw [sensor_pti]
    have h2 : ld.df.index[1]? = none := List.getElem?_eq_none (by omega)
    simp [h2, orErr, error_bind]
  refine ⟨h1, ?_⟩
  rintro n a ⟨m, hm, hd⟩
  exact aau_abort n a sensor_pti m hm ld hd (by simp [h1, Except.isOk, Except.toBool])

/-- C9 witness: the amended statement at the concrete one-sample leaf and
the tree containing it. -/
theorem pti_short_amended_witness :
    sensor_pti ld_C9 = .error .indexError ∧
    (attribute_average_up tree_C9 "sensor_pti" sensor_pti).isOk = false :=
  ⟨(pti_short_amended ld_C9 (by norm_num [ld_C9])).1,
   (pti_short_amended ld_C9 (by norm_num [ld_C9])).2 tree_C9 "sensor_pti"
     ⟨.mk "L" 1 ["R", "L"] [] [] (some ld_C9) (some ["R"]),
      by simp [collect_leaf_eq, tree_C9, PNode.branches],
      by simp [PNode.data]⟩⟩

/-- C3: restructuring with a compressing layout rewrites the shared
loc-map dictionary — the very object every source-tree node's `loc_map`
attribute aliases — so the source tree's level map no longer maps the
default level names.  This contradicts `restructure`'s own docstring
("the original node tree remains unchanged"): the code writes through
the shared `default_loc_map` object instead of building a fresh map. -/
theorem restructure_mutates_shared_loc_map :
    (restructure tree_C3 ["root", "condition", "compress"] default_loc_map).toOption.map
        Prod.snd
      = some [("root", 0), ("condition", 1), ("compress", 2)] ∧
    ([("root", 0), ("condition", 1), ("compress", 2)] : LocMap) ≠ default_loc_map := by
  have hleaves : collect_leaf tree_C3 =
      [.mk "S1" 1 ["root", "S1"] [] [] (some ld_1) (some ["root"])] := by
    simp [collect_leaf_eq, tree_C3, PNode.branches]
  constructor
  · simp only [restructure]
    rw [hleaves]
    rfl
  · decide

/-- C5 counterexample: restructuring the 3-level tree with the layout
`(root, condition)` does not create a branch named `conditionX`: since
the layout's final entry is treated as the leaf layer, the new root's
sole child is a *leaf*, and its name is not `"conditionX"`. -/
theorem restructure_two_entry_layout_counterexample :
    (restructure tree_C5 ["root", "condition"] default_loc_map).toOption.map
        (fun r => r.1.branches.map (fun b => (b.name, b.is_leaf)))
      = some [("subjectA - conditionX - trial1", true)] ∧
    "subjectA - conditionX - trial1" ≠ "conditionX" := by
  have hleaves : collect_leaf tree_C5 =
      [.mk "trial1" 3 ["root", "subjectA", "conditionX", "trial1"] [] [] (some ld_1)
         (some ["root", "subjectA", "conditionX"])] := by
    simp [collect_leaf_eq, tree_C5, PNode.branches]
  constructor
  · simp only [restructure]
    rw [hleaves]
    rfl
  · decide

/-- C5 amended: with layout `(root, condition)` the new root's sole child
is a leaf wrapping the original payload, named by joining *all* compressed
segments — `"subjectA - conditionX - trial1"` — which contains `subjectA`
and `trial1` (and also `conditionX`) in their original depth order. -/
theorem restructure_two_entry_layout_amended :
    (restructure tree_C5 ["root", "condition"] default_loc_map).toOption.map
        (fun r => r.1.branches.map (fun b => (b.name, b.is_leaf, b.data)))
      = some [("subjectA - conditionX - trial1", true, some ld_1)] ∧
    "subjectA - conditionX - trial1"
      = "subjectA" ++ " - " ++ "conditionX" ++ " - " ++ "trial1" := by
  have hleaves : collect_leaf tree_C5 =
      [.mk "trial1" 3 ["root", "subjectA", "conditionX", "trial1"] [] [] (some ld_1)
         (some ["root", "subjectA", "conditionX"])] := by
    simp [collect_leaf_eq, tree_C5, PNode.branches]
  constructor
  · simp only [restructure]
    rw [hleaves]
    rfl
  · rfl

/-- C2 counterexample: two distinct source leaves whose composite names
collide (`"a - b"` as a literal leaf name versus the joined path
`a → b`) — `restructure` silently drops the second one at the
duplicate-branch warning, so the restructured tree's leaf-record multiset
is not the source's. -/
theorem restructure_drops_colliding_leaf :
    (restructure tree_C2 ["root", "compress"] default_loc_map).toOption.map
        (fun r => (collect_leaf r.1).map PNode.data)
      = some [some ld_1] ∧
    (collect_leaf tree_C2).map PNode.data = [some ld_1, some ld_2] ∧
    ¬ ([some ld_1] : List (Option LeafData)).Perm [some ld_1, some ld_2] := by
  have hleaves : collect_leaf tree_C2 =
      [.mk "a - b" 1 ["root", "a - b"] [] [] (some ld_1) (some ["root"]),
       .mk "b" 2 ["root", "a", "b"] [] [] (some ld_2) (some ["root", "a"])] := by
    simp [collect_leaf_eq, tree_C2, PNode.branches]
  have hres : restructure tree_C2 ["root", "compress"] default_loc_map =
      .ok (.mk "root" 0 ["root"] []
             [.mk "a - b" 1 ["root", "a - b"] [] [] (some ld_1) (some ["root"])]
             none none,
           [("root", 0), ("compress", 1)]) := by
    simp only [restructure]
    rw [hleaves]
    rfl
  refine ⟨?_, ?_, ?_⟩
  · rw [hres]
    simp [Except.toOption, collect_leaf_eq, PNode.branches, PNode.data]
  · rw [hleaves]
    rfl
  · intro h
    simpa using h.length_eq

/-- C8 counterexample: with sibling leaves over disagreeing channel sets
(`{c1}` and `{c1, c2}`) the aggregation does not fail with
`ChannelMismatchError`; it succeeds and stores at the parent the
outer-join NaN-skipping mean `{c1: 20, c2: 40}`. -/
theorem channel_mismatch_counterexample :
    (attribute_average_up tree_C8 "sensor_peak" sensor_peak).isOk = true ∧
    attrAt (attribute_average_up tree_C8 "sensor_peak" sensor_peak) [] "sensor_peak"
      = some [("c1", some 20), ("c2", some 40)] ∧
    attribute_average_up tree_C8 "sensor_peak" sensor_peak ≠ .error .channelMismatchError := by
  have h : attribute_average_up tree_C8 "sensor_peak" sensor_peak =
      .ok (.mk "R" 0 ["R"] [("sensor_peak", [("c1", some 20), ("c2", some 40)])]
        [.mk "A" 1 ["R", "A"] [("sensor_peak", [("c1", some 10)])] []
           (some ld_A8) (some ["R"]),
         .mk "B" 1 ["R", "B"] [("sensor_peak", [("c1", some 30), ("c2", some 40)])] []
           (some ld_B) (some ["R"])] none none) := by
    simp only [tree_C8, aau_cons, aaub_cons, aaub_nil, aau_nil, ok_bind, error_bind,
      sensor_peak, colMax, orErr, ld_A8, ld_B, df_B,
      PNode.attr, PNode.data, dictGet, dictSet,
      List.map_cons, List.map_nil, List.foldl_cons, List.foldl_nil]
    simp only [ok_bind, error_bind, concat_mean, pd_concat, keyUnion, nanMean,
      List.map_cons, List.map_nil, List.flatMap_cons, List.flatMap_nil,
      List.foldl_cons, List.foldl_nil, dictGet, dictSet]
    simp only [Bind.bind, Except.bind]
    simp [dictGet, ld_A8, ld_B, df_B]
    norm_num
  refine ⟨by rw [h]; rfl, by rw [attrAt, h]; rfl, by rw [h]; simp⟩

/-- C10: the value aggregated at a branch is the unweighted arithmetic
mean of its direct children's values, regardless of subtree leaf counts:
for a root with one leaf child of value `a` and one branch child with two
leaves `b1`, `b2`, the root stores `(a + (b1 + b2)/2)/2`, which differs
from the all-leaves mean `(a + b1 + b2)/3` whenever `a ≠ (b1 + b2)/2`. -/
theorem unweighted_mean_of_children (a b1 b2 : ℚ) :
    attrAt (attribute_average_up (tree_C10 a b1 b2) "sensor_peak" sensor_peak) [] "sensor_peak"
      = some [("c", some ((a + (b1 + b2) / 2) / 2))] ∧
    (a ≠ (b1 + b2) / 2 → (a + (b1 + b2) / 2) / 2 ≠ (a + b1 + b2) / 3) := by
  have h : attribute_average_up (tree_C10 a b1 b2) "sensor_peak" sensor_peak =
      .ok (.mk "R" 0 ["R"] [("sensor_peak", [("c", some ((a + (b1 + b2) / 2) / 2))])]
        [.mk "A" 1 ["R", "A"] [("sensor_peak", [("c", some a)])] []
           (some ⟨⟨[0], [("c", [a])]⟩, 0, 1⟩) (some ["R"]),
         .mk "B" 1 ["R", "B"] [("sensor_peak", [("c", some ((b1 + b2) / 2))])]
           [.mk "B1" 2 ["R", "B", "B1"] [("sensor_peak", [("c", some b1)])] []
              (some ⟨⟨[0], [("c", [b1])]⟩, 0, 1⟩) (some ["R", "B"]),
            .mk "B2" 2 ["R", "B", "B2"] [("sensor_peak", [("c", some b2)])] []
              (some ⟨⟨[0], [("c", [b2])]⟩, 0, 1⟩) (some ["R", "B"])]
           none (some ["R"])] none none) := by
    simp only [tree_C10, aau_cons, aaub_cons, aaub_nil, aau_nil, ok_bind, error_bind,
      sensor_peak, colMax, orErr,
      PNode.attr, PNode.data, dictGet, dictSet,
      List.map_cons, List.map_nil, List.foldl_cons, List.foldl_nil]
    simp only [ok_bind, error_bind, concat_mean, pd_concat, keyUnion, nanMean,
      List.map_cons, List.map_nil, List.flatMap_cons, List.flatMap_nil,
      List.foldl_cons, List.foldl_nil, dictGet, dictSet]
    simp only [Bind.bind, Except.bind]
    simp [dictGet]
  constructor
  · rw [attrAt, h]
    simp [Except.toOption, Option.bind, nodeAt, PNode.attr, dictGet]
  · intro hne heq
    apply hne
    linear_combination 6 * heq

/-- C10 witness: the unweighted-mean statement at `a = 10`, `b1 = 20`,
`b2 = 40`, with the inner disagreement hypothesis discharged. -/
theorem unweighted_mean_witness :
    attrAt (attribute_average_up (tree_C10 10 20 40) "sensor_peak" sensor_peak) [] "sensor_peak"
      = some [("c", some ((10 + (20 + 40) / 2) / 2))] ∧
    ((10 + (20 + 40) / 2) / 2 : ℚ) ≠ (10 + 20 + 40) / 3 :=
  ⟨(unweighted_mean_of_children 10 20 40).1,
   (unweighted_mean_of_children 10 20 40).2 (by norm_num)⟩

/-- The parent returned by a successful (non-duplicate) `add_branch` is
the original with the stamped child appended. -/
theorem add_branch_ok_shape (p c pp : PNode) (h : add_branch p c = .ok (pp, false)) :
    pp = .mk p.name p.level p.loc p.attr
           (p.branches ++ [stampChild p c]) p.data p.source := by
  rw [add_branch] at h
  split at h
  · simp only [Except.ok.injEq, Prod.mk.injEq] at h
    exact absurd h.2 (by simp)
  · simp only [Except.ok.injEq, Prod.mk.injEq] at h
    exact h.1.symm

/-- Every node of a tree built through the public API satisfies
`len(loc) = level + 1`. -/
theorem built_loc_level (t : PNode) (hb : Built t) :
    ∀ n ∈ allNodes t, n.loc.length = n.level + 1 := by
  induction hb with
  | setup name =>
    intro n hn
    rw [allNodes_eq] at hn
    simp [pedar_setup, PNode.branches] at hn
    subst hn
    rfl
  | dataSetup name ld =>
    intro n hn
    rw [allNodes_eq] at hn
    simp [data_setup, PNode.branches] at hn
    subst hn
    rfl
  | grow p c pp hp hc hadd ihp ihc =>
    intro n hn
    have hshape := add_branch_ok_shape p c pp hadd
    subst hshape
    rw [allNodes_eq] at hn
    simp only [PNode.branches] at hn
    rcases List.mem_cons.1 hn with h | h
    · subst h
      have hself : p ∈ allNodes p := by rw [allNodes_eq]; exact List.mem_cons_self p _
      simpa [PNode.loc, PNode.level] using ihp p hself
    · obtain ⟨x, hx, hnx⟩ := List.mem_flatMap.1 h
      rcases List.mem_append.1 hx with hx1 | hx2
      · have : n ∈ allNodes p := by
          rw [allNodes_eq]
          exact List.mem_cons_of_mem _ (List.mem_flatMap.2 ⟨x, hx1, hnx⟩)
        exact ihp n this
      · have hx2' : x = stampChild p c := by simpa using hx2
        subst hx2'
        rw [allNodes_eq] at hnx
        simp only [stampChild, PNode.branches] at hnx
        rcases List.mem_cons.1 hnx with h2 | h2
        · subst h2
          simp [PNode.loc, PNode.level, stampChild]
        · have : n ∈ allNodes c := by
            rw [allNodes_eq]
            exact List.mem_cons_of_mem _ h2
          exact ihc n this

/-- C6: after each successful `add_branch(child)` on API-built nodes, the
attached child has `level = parent.level + 1`, `loc = parent.loc ++
[child.name]`, and a source back-reference to the parent; and every node
of the resulting tree satisfies `len(loc) = level + 1`. -/
theorem add_branch_depth_path_consistency (p c pp : PNode)
    (hp : Built p) (hc : Built c) (h : add_branch p c = .ok (pp, false)) :
    pp.branches.getLast? = some (stampChild p c) ∧
    (stampChild p c).level = p.level + 1 ∧
    (stampChild p c).loc = p.loc ++ [c.name] ∧
    (stampChild p c).source = some p.loc ∧
    ∀ n ∈ allNodes pp, n.loc.length = n.level + 1 := by
  have hshape := add_branch_ok_shape p c pp h
  have hploc : p.loc.length = p.level + 1 := by
    have hself : p ∈ allNodes p := by rw [allNodes_eq]; exact List.mem_cons_self p _
    exact built_loc_level p hp p hself
  refine ⟨?_, ?_, rfl, rfl, ?_⟩
  · rw [hshape]
    simp only [PNode.branches]
    exact List.getLast?_concat _
  · have hlv : (stampChild p c).level = p.loc.length := by
      simp [stampChild, PNode.level, List.length_append]
    rw [hlv, hploc]
  · exact built_loc_level pp (Built.grow p c pp hp hc h)

/-- C6 witness: the consistency statement for `setup("root")` receiving a
fresh `setup("S1")` child. -/
theorem add_branch_depth_path_consistency_witness :
    (PNode.mk "root" 0 ["root"] []
        [PNode.mk "S1" 1 ["root", "S1"] [] [] none (some ["root"])]
        none none).branches.getLast?
      = some (stampChild (pedar_setup "root") (pedar_setup "S1")) ∧
    (stampChild (pedar_setup "root") (pedar_setup "S1")).level
      = (pedar_setup "root").level + 1 ∧
    (stampChild (pedar_setup "root") (pedar_setup "S1")).loc
      = (pedar_setup "root").loc ++ [(pedar_setup "S1").name] ∧
    (stampChild (pedar_setup "root") (pedar_setup "S1")).source
      = some (pedar_setup "root").loc ∧
    ∀ n ∈ allNodes (PNode.mk "root" 0 ["root"] []
        [PNode.mk "S1" 1 ["root", "S1"] [] [] none (some ["root"])]
        none none), n.loc.length = n.level + 1 :=
  add_branch_depth_path_consistency (pedar_setup "root") (pedar_setup "S1")
    (PNode.mk "root" 0 ["root"] []
      [PNode.mk "S1" 1 ["root", "S1"] [] [] none (some ["root"])] none none)
    (Built.setup "root") (Built.setup "S1") (by rfl)

/-- Reading back the key just written by `dictSet`. -/
theorem dictGet_dictSet_self (m : List (String × α)) (k : String) (v : α) :
    dictGet (dictSet m k v) k = some v := by
  induction m with
  | nil => simp [dictSet, dictGet]
  | cons kv r ih =>
    by_cases h : kv.1 = k
    · simp [dictSet, h, dictGet]
    · cases kv with
      | mk k' w =>
        simp only at h
        simp [dictSet, dictGet, h, ih]

/-- Each pair produced by the branch loop holds the series stored at that
branch. -/
theorem aau_branches_vals (l : List PNode) (a : String)
    (f : LeafData → Except PErr Series) (pairs : List (PNode × Series))
    (h : aau_branches l a f = .ok pairs) :
    ∀ pr ∈ pairs, dictGet pr.1.attr a = some pr.2 := by
  induction l generalizing pairs with
  | nil =>
    rw [aaub_nil] at h
    simp only [Except.ok.injEq] at h
    subst h
    intro pr hpr
    cases hpr
  | cons b bs ih =>
    rw [aaub_cons] at h
    cases hx : attribute_average_up b a f with
    | error e => rw [hx, error_bind] at h; cases h
    | ok bb =>
      rw [hx, ok_bind] at h
      cases hy : dictGet bb.attr a with
      | none => rw [hy] at h; simp [orErr, error_bind] at h
      | some v =>
        rw [hy] at h
        simp only [orErr, ok_bind] at h
        cases hz : aau_branches bs a f with
        | error e => rw [hz, error_bind] at h; cases h
        | ok rest =>
          rw [hz, ok_bind] at h
          simp only [Except.ok.injEq] at h
          subst h
          intro pr hpr
          rcases List.mem_cons.1 hpr with h1 | h1
          · subst h1; exact hy
          · exact ih rest hz pr h1

/-- Collecting each updated branch's stored series recovers the loop's
series list. -/
theorem filterMap_pairs (pairs : List (PNode × Series)) (a : String)
    (hv : ∀ pr ∈ pairs, dictGet pr.1.attr a = some pr.2) :
    (pairs.map Prod.fst).filterMap (fun b => dictGet b.attr a) = pairs.map Prod.snd := by
  induction pairs with
  | nil => rfl
  | cons pr rest ih =>
    simp only [List.map_cons, List.filterMap_cons]
    rw [hv pr (List.mem_cons_self pr rest)]
    simp only [List.map_cons]
    rw [ih (fun q hq => hv q (List.mem_cons_of_mem pr hq))]

/-- Dictionary lookup in a list keyed by its own map function. -/
theorem dictGet_keyed_map (ks : List String) (g : String → β) (k : String) :
    dictGet (ks.map (fun x => (x, g x))) k = if k ∈ ks then some (g k) else none := by
  induction ks with
  | nil => simp [dictGet]
  | cons x xs ih =>
    simp only [List.map_cons, dictGet]
    by_cases h : x = k
    · subst h
      simp
    · rw [if_neg h, ih]
      by_cases h2 : k ∈ xs
      · simp [h2, List.mem_cons, Ne.symm h]
      · have hkx : ¬ (k = x) := fun hh => h hh.symm
        simp [h2, List.mem_cons, hkx]

/-- The outer-join row mean agrees with the specification-style
mean-over-children-carrying-the-channel. -/
theorem nanMean_eq_specMean (ss : List Series) (k : String) :
    nanMean (ss.map (fun s => (dictGet s k).join)) = specMeanOverPresent ss k := by
  simp only [nanMean, specMeanOverPresent]
  congr 1 <;> rw [List.filterMap_map] <;> rfl

/-- C8 amended: when sibling subtrees produce per-channel results over
disagreeing channel sets, the up-averaging aggregation does not fail with
`ChannelMismatchError`; whenever it returns, the parent's stored series is
the outer-join combination of the children's stored series, and each
channel's value is the arithmetic mean over exactly those children that
carry the channel (NaN when none does). -/
theorem channel_union_mean_amended (node t' : PNode) (a : String)
    (f : LeafData → Except PErr Series) (k : String)
    (hbr : node.branches.isEmpty = false)
    (hok : attribute_average_up node a f = .ok t') :
    dictGet t'.attr a
      = some (concat_mean (t'.branches.filterMap (fun b => dictGet b.attr a))) ∧
    dictGet (concat_mean (t'.branches.filterMap (fun b => dictGet b.attr a))) k
      = if k ∈ keyUnion (t'.branches.filterMap (fun b => dictGet b.attr a))
        then some (specMeanOverPresent
               (t'.branches.filterMap (fun b => dictGet b.attr a)) k)
        else none := by
  rcases hbs : node.branches with _ | ⟨b, bs⟩
  · rw [hbs] at hbr; simp at hbr
  · rw [aau_cons_general node b bs hbs] at hok
    cases hpr : aau_branches (b :: bs) a f with
    | error e => rw [hpr, error_bind] at hok; cases hok
    | ok pairs =>
      rw [hpr, ok_bind] at hok
      simp only [Except.ok.injEq] at hok
      subst hok
      have hv := aau_branches_vals (b :: bs) a f pairs hpr
      have hfm := filterMap_pairs pairs a hv
      simp only [PNode.attr, PNode.branches] at hfm ⊢
      rw [hfm, dictGet_dictSet_self]
      refine ⟨rfl, ?_⟩
      have hcm : concat_mean (pairs.map Prod.snd)
          = (keyUnion (pairs.map Prod.snd)).map
              (fun x => (x, nanMean ((pairs.map Prod.snd).map
                (fun s => (dictGet s x).join)))) := by
        simp only [concat_mean, pd_concat, List.map_map]
        rfl
      rw [hcm, dictGet_keyed_map]
      by_cases hk : k ∈ keyUnion (pairs.map Prod.snd)
      · rw [if_pos hk, if_pos hk, nanMean_eq_specMean]
      · rw [if_neg hk, if_neg hk]

/-- C8 witness: the amended statement at the concrete mismatched tree
(`{c1}` vs `{c1, c2}`), channel `c2`. -/
theorem channel_union_mean_amended_witness :
    dictGet (PNode.mk "R" 0 ["R"] [("sensor_peak", [("c1", some 20), ("c2", some 40)])]
        [PNode.mk "A" 1 ["R", "A"] [("sensor_peak", [("c1", some 10)])] []
           (some ld_A8) (some ["R"]),
         PNode.mk "B" 1 ["R", "B"] [("sensor_peak", [("c1", some 30), ("c2", some 40)])] []
           (some ld_B) (some ["R"])] none none).attr "sensor_peak"
      = some (concat_mean ((PNode.mk "R" 0 ["R"]
          [("sensor_peak", [("c1", some 20), ("c2", some 40)])]
          [PNode.mk "A" 1 ["R", "A"] [("sensor_peak", [("c1", some 10)])] []
             (some ld_A8) (some ["R"]),
           PNode.mk "B" 1 ["R", "B"] [("sensor_peak", [("c1", some 30), ("c2", some 40)])] []
             (some ld_B) (some ["R"])] none none).branches.filterMap
            (fun b => dictGet b.attr "sensor_peak"))) ∧
    dictGet (concat_mean ((PNode.mk "R" 0 ["R"]
          [("sensor_peak", [("c1", some 20), ("c2", some 40)])]
          [PNode.mk "A" 1 ["R", "A"] [("sensor_peak", [("c1", some 10)])] []
             (some ld_A8) (some ["R"]),
           PNode.mk "B" 1 ["R", "B"] [("sensor_peak", [("c1", some 30), ("c2", some 40)])] []
             (some ld_B) (some ["R"])] none none).branches.filterMap
            (fun b => dictGet b.attr "sensor_peak"))) "c2"
      = if "c2" ∈ keyUnion ((PNode.mk "R" 0 ["R"]
          [("sensor_peak", [("c1", some 20), ("c2", some 40)])]
          [PNode.mk "A" 1 ["R", "A"] [("sensor_peak", [("c1", some 10)])] []
             (some ld_A8) (some ["R"]),
           PNode.mk "B" 1 ["R", "B"] [("sensor_peak", [("c1", some 30), ("c2", some 40)])] []
             (some ld_B) (some ["R"])] none none).branches.filterMap
            (fun b => dictGet b.attr "sensor_peak"))
        then some (specMeanOverPresent ((PNode.mk "R" 0 ["R"]
          [("sensor_peak", [("c1", some 20), ("c2", some 40)])]
          [PNode.mk "A" 1 ["R", "A"] [("sensor_peak", [("c1", some 10)])] []
             (some ld_A8) (some ["R"]),
           PNode.mk "B" 1 ["R", "B"] [("sensor_peak", [("c1", some 30), ("c2", some 40)])] []
             (some ld_B) (some ["R"])] none none).branches.filterMap
            (fun b => dictGet b.attr "sensor_peak")) "c2")
        else none :=
  channel_union_mean_amended tree_C8 _ "sensor_peak" sensor_peak "c2" (by rfl) (by
    simp only [tree_C8, aau_cons, aaub_cons, aaub_nil, aau_nil, ok_bind, error_bind,
      sensor_peak, colMax, orErr, ld_A8, ld_B, df_B,
      PNode.attr, PNode.data, dictGet, dictSet,
      List.map_cons, List.map_nil, List.foldl_cons, List.foldl_nil]
    simp only [ok_bind, error_bind, concat_mean, pd_concat, keyUnion, nanMean,
      List.map_cons, List.map_nil, List.flatMap_cons, List.flatMap_nil,
      List.foldl_cons, List.foldl_nil, dictGet, dictSet]
    simp only [Bind.bind, Except.bind]
    simp [dictGet, ld_A8, ld_B, df_B]
    norm_num)

set_option maxRecDepth 8000

-- dictGet after dictSet at a different key
theorem dictGet_dictSet_ne (m : List (String × α)) (k k' : String) (v : α)
    (h : k ≠ k') :
    dictGet (dictSet m k v) k' = dictGet m k' := by
  induction m with
  | nil => simp [dictSet, dictGet, h]
  | cons kv r ih =>
    cases kv with
    | mk k0 w =>
      by_cases h0 : k0 = k
      · subst h0
        simp [dictSet, dictGet, h]
      · simp [dictSet, dictGet, h0, ih]

-- assignLayers does not touch keys outside the assigned list
theorem dictGet_assignLayers_not_mem (start : Nat) (ls : List String) :
    ∀ (m : LocMap) (i : Nat) (k : String), k ∉ ls →
      dictGet (assignLayers start m ls i) k = dictGet m k := by
  induction ls with
  | nil => intro m i k hk; rfl
  | cons x xs ih =>
    intro m i k hk
    rw [assignLayers, ih _ _ _ (fun hmem => hk (List.mem_cons_of_mem x hmem))]
    exact dictGet_dictSet_ne m x k (start + i) (fun he => hk (he ▸ List.mem_cons_self x xs))

-- assignLayers assigns position values to a duplicate-free list
theorem dictGet_assignLayers_mem (start : Nat) (ls : List String) :
    ∀ (m : LocMap) (i : Nat) (j : Nat) (hj : j < ls.length), ls.Nodup →
      dictGet (assignLayers start m ls i) (ls.get ⟨j, hj⟩) = some (start + i + j) := by
  induction ls with
  | nil => intro m i j hj; simp at hj
  | cons x xs ih =>
    intro m i j hj hnd
    rw [assignLayers]
    cases j with
    | zero =>
      simp only [List.get]
      rw [dictGet_assignLayers_not_mem start xs _ _ x (List.nodup_cons.1 hnd).1]
      simp [dictGet_dictSet_self]
    | succ j' =>
      simp only [List.get]
      have := ih (dictSet m x (start + i)) (i + 1) j' (by simpa using hj)
        (List.nodup_cons.1 hnd).2
      rw [this]
      congr 1
      omega

-- change_loc_map gives every layout entry its position offset by the start level
theorem dictGet_change_loc_map (m : LocMap) (start : Nat) (layout : List String)
    (hnd : layout.Nodup) (j : Nat) (hj : j < layout.length) :
    dictGet (change_loc_map m start layout) (layout.get ⟨j, hj⟩) = some (start + j) := by
  rw [change_loc_map]
  have := dictGet_assignLayers_mem start layout (m.filter (fun kv => kv.2 < start)) 0 j hj hnd
  simpa using this

-- findChildIdx fails exactly when the name is absent
theorem findChildIdx_none_iff (bs : List PNode) (nm : String) :
    findChildIdx bs nm = none ↔ ∀ b ∈ bs, b.name ≠ nm := by
  induction bs with
  | nil => simp [findChildIdx]
  | cons b rest ih =>
    rw [findChildIdx]
    by_cases h : b.name = nm
    · simp [h]
    · simp only [h, if_false, Option.map_eq_none', ih, List.mem_cons]
      constructor
      · rintro hall x (rfl | hx)
        · exact h
        · exact hall x hx
      · intro hall x hx
        exact hall x (Or.inr hx)

-- what a successful findChildIdx returns
theorem findChildIdx_some_spec (bs : List PNode) (nm : String) (ic : Nat × PNode)
    (h : findChildIdx bs nm = some ic) :
    ∃ hlt : ic.1 < bs.length, bs.get ⟨ic.1, hlt⟩ = ic.2 ∧ ic.2.name = nm := by
  induction bs generalizing ic with
  | nil => cases h
  | cons b rest ih =>
    rw [findChildIdx] at h
    by_cases hb : b.name = nm
    · rw [if_pos hb] at h
      simp only [Option.some.injEq] at h
      subst h
      exact ⟨Nat.succ_pos _, rfl, hb⟩
    · rw [if_neg hb] at h
      cases hrec : findChildIdx rest nm with
      | none => rw [hrec] at h; cases h
      | some jc =>
        rw [hrec] at h
        simp only [Option.map_some', Option.some.injEq] at h
        obtain ⟨hlt, hget, hname⟩ := ih jc hrec
        subst h
        exact ⟨by simpa using Nat.succ_lt_succ hlt, by simpa using hget, hname⟩

-- insertPure keeps the node's name
theorem insertPure_name (cur : PNode) (names : List String) (lf : String) (ld : LeafData) :
    (insertPure cur names lf ld).name = cur.name := by
  cases names with
  | nil =>
    rw [insertPure]
    split
    · rfl
    · rfl
  | cons nm rest =>
    rw [insertPure]
    cases findChildIdx cur.branches nm with
    | some ic => rfl
    | none => rfl

-- insertPure always leaves at least one branch
theorem insertPure_branches_ne_nil (cur : PNode) (names : List String) (lf : String)
    (ld : LeafData) : (insertPure cur names lf ld).branches ≠ [] := by
  cases cur with
  | mk n l lc a0 bs d s =>
    cases names with
    | nil =>
      rw [insertPure]
      split
      · rename_i hany
        simp only [PNode.branches] at hany ⊢
        rw [List.any_eq_true] at hany
        obtain ⟨b, hb, _⟩ := hany
        intro hnil
        rw [hnil] at hb
        cases hb
      · simp [PNode.branches]
    | cons nm rest =>
      rw [insertPure]
      simp only [PNode.branches]
      cases hf : findChildIdx bs nm with
      | some ic =>
        simp only [PNode.branches]
        obtain ⟨hlt, _, _⟩ := findChildIdx_some_spec bs nm ic hf
        intro hnil
        have hlen := congrArg List.length hnil
        rw [List.length_set] at hlen
        simp only [List.length_nil] at hlen
        omega
      | none => simp [PNode.branches]

-- leafPathsD is never empty
theorem leafPathsD_ne_nil (t : PNode) : leafPathsD t ≠ [] := by
  rw [leafPathsD_eq]
  rcases hbs : t.branches with _ | ⟨b, bs⟩
  · simp
  · simp only [List.isEmpty_cons, Bool.false_eq_true, if_false]
    intro hnil
    rw [List.flatMap_cons] at hnil
    have hb := leafPathsD_ne_nil b
    rcases hx : leafPathsD b with _ | ⟨p, ps⟩
    · exact hb hx
    · rw [hx] at hnil
      simp at hnil
termination_by sizeOf t
decreasing_by
  have h1 : b ∈ t.branches := by rw [hbs]; exact List.mem_cons_self b bs
  have h2 := List.sizeOf_lt_of_mem h1
  cases t with
  | mk nm l lc a0 bs0 d s =>
    simp only [PNode.branches] at h2
    simp only [PNode.mk.sizeOf_spec]
    omega

-- collect_leaf is never empty
theorem collect_leaf_ne_nil (t : PNode) : collect_leaf t ≠ [] := by
  rw [collect_leaf_eq]
  rcases hbs : t.branches with _ | ⟨b, bs⟩
  · simp
  · simp only [List.isEmpty_cons, Bool.false_eq_true, if_false]
    intro hnil
    rw [List.flatMap_cons] at hnil
    have hb := collect_leaf_ne_nil b
    rcases hx : collect_leaf b with _ | ⟨p, ps⟩
    · exact hb hx
    · rw [hx] at hnil
      simp at hnil
termination_by sizeOf t
decreasing_by
  have h1 : b ∈ t.branches := by rw [hbs]; exact List.mem_cons_self b bs
  have h2 := List.sizeOf_lt_of_mem h1
  cases t with
  | mk nm l lc a0 bs0 d s =>
    simp only [PNode.branches] at h2
    simp only [PNode.mk.sizeOf_spec]
    omega

-- the leaf payloads seen through collect_leaf and leafPathsD agree
theorem collect_leaf_data_eq (t : PNode) :
    (collect_leaf t).map PNode.data = (leafPathsD t).map Prod.snd := by
  rw [collect_leaf_eq, leafPathsD_eq]
  rcases hbs : t.branches with _ | ⟨b, bs⟩
  · simp
  · simp only [List.isEmpty_cons, Bool.false_eq_true, if_false]
    rw [List.map_flatMap, List.map_flatMap]
    refine List.flatMap_congr (fun x hx => ?_)
    rw [collect_leaf_data_eq x]
    rw [List.map_map]
    rfl
termination_by sizeOf t
decreasing_by
  have h2 := List.sizeOf_lt_of_mem (hbs ▸ hx)
  cases t with
  | mk nm l lc a0 bs0 d s =>
    simp only [PNode.branches] at h2
    simp only [PNode.mk.sizeOf_spec]
    omega

-- incomparability through a shared head
theorem incomp_cons (a : String) (p q : List String) :
    incomp (a :: p) (a :: q) ↔ incomp p q := by
  simp [incomp, isAncPath]

-- nothing is incomparable with the empty path
theorem not_incomp_nil (q : List String) : ¬ incomp [] q := by
  intro h
  have := h.1
  simp [isAncPath] at this

-- leafPathsD of a node with a non-empty branch list
theorem leafPathsD_mk_branches (n : String) (l : Nat) (lc : List String)
    (a0 : List (String × Series)) (bs : List PNode) (d : Option LeafData)
    (s : Option (List String)) (hbs : bs ≠ []) :
    leafPathsD (.mk n l lc a0 bs d s)
      = bs.flatMap (fun b => (leafPathsD b).map (fun pd => (b.name :: pd.1, pd.2))) := by
  rw [leafPathsD_eq]
  simp only [PNode.branches]
  rw [if_neg (by simp [List.isEmpty_iff, hbs])]

-- the branch flatMap seen as leafPathsD
theorem flatMap_branches_eq (n : String) (l : Nat) (lc : List String)
    (a0 : List (String × Series)) (bs : List PNode) (d : Option LeafData)
    (s : Option (List String)) :
    bs.flatMap (fun b => (leafPathsD b).map (fun pd => (b.name :: pd.1, pd.2)))
      = if bs.isEmpty then [] else leafPathsD (.mk n l lc a0 bs d s) := by
  rcases bs with _ | ⟨b, rest⟩
  · simp
  · rw [if_neg (by simp)]
    rw [leafPathsD_mk_branches _ _ _ _ _ _ _ (by simp)]

-- the freshly built data leaf has a single empty-path entry
theorem leafPathsD_stamp_leaf (cur : PNode) (lf : String) (ld : LeafData) :
    leafPathsD (stampChild cur (data_setup lf ld)) = [([], some ld)] := by
  rw [leafPathsD_eq]
  simp [stampChild, data_setup, PNode.branches, PNode.data]

-- a node whose leaf entries are all incomparable with something has branches
theorem branches_ne_nil_of_incomp (n : String) (l : Nat) (lc : List String)
    (a0 : List (String × Series)) (bs : List PNode) (d : Option LeafData)
    (s : Option (List String)) (c : List String)
    (h : ∀ pd ∈ leafPathsD (.mk n l lc a0 bs d s), incomp pd.1 c) : bs ≠ [] := by
  rintro rfl
  refine not_incomp_nil c (h ([], d) ?_)
  rw [leafPathsD_eq]
  simp [PNode.branches, PNode.data]

-- inserting along a path whose first step is fresh builds a fresh chain
theorem insertPure_fresh (names : List String) (cur : PNode) (lf : String) (ld : LeafData)
    (h : ∀ b ∈ cur.branches, b.name ≠ names.headD lf) :
    leafPathsD (insertPure cur names lf ld)
      = (if cur.branches.isEmpty then [] else leafPathsD cur)
        ++ [(names ++ [lf], some ld)] := by
  induction names generalizing cur with
  | nil =>
    cases cur with
    | mk n l lc a0 bs d s =>
      simp only [PNode.branches] at h ⊢
      rw [insertPure]
      simp only [PNode.branches]
      rw [if_neg (by
        simp only [List.any_eq_true, not_exists]
        rintro b ⟨hb, hbn⟩
        exact h b hb (by simpa using hbn))]
      rw [leafPathsD_mk_branches _ _ _ _ _ _ _ (by simp)]
      rw [List.flatMap_append]
      rw [flatMap_branches_eq n l lc a0 bs d s]
      rw [List.flatMap_cons, List.flatMap_nil]
      rw [leafPathsD_stamp_leaf]
      have hnm : (stampChild (PNode.mk n l lc a0 bs d s) (data_setup lf ld)).name = lf := rfl
      rw [hnm]
      simp
  | cons nm rest ih =>
    cases cur with
    | mk n l lc a0 bs d s =>
      simp only [PNode.branches, List.headD] at h ⊢
      rw [insertPure]
      simp only [PNode.branches]
      have hnone : findChildIdx bs nm = none :=
        (findChildIdx_none_iff bs nm).2 (fun b hb => h b hb)
      rw [hnone]
      have hstamp : (stampChild (PNode.mk n l lc a0 bs d s) (pedar_setup nm)).branches = [] := by
        simp [stampChild, pedar_setup, PNode.branches]
      have hub := ih (stampChild (PNode.mk n l lc a0 bs d s) (pedar_setup nm))
        (by rw [hstamp]; intro b hb; cases hb)
      rw [leafPathsD_mk_branches _ _ _ _ _ _ _ (by simp)]
      rw [List.flatMap_append]
      rw [flatMap_branches_eq n l lc a0 bs d s]
      rw [List.flatMap_cons, List.flatMap_nil]
      rw [hub, hstamp]
      simp only [List.isEmpty_nil, if_true, List.nil_append]
      have hnm : (insertPure (stampChild (PNode.mk n l lc a0 bs d s) (pedar_setup nm))
          rest lf ld).name = nm := by
        rw [insertPure_name]
        simp [stampChild, pedar_setup, PNode.name]
      rw [hnm]
      simp

-- inserting along a path incomparable with every existing leaf path adds
-- exactly one entry
theorem insertPure_incomp (names : List String) (cur : PNode) (lf : String) (ld : LeafData)
    (h : ∀ pd ∈ leafPathsD cur, incomp pd.1 (names ++ [lf])) :
    (leafPathsD (insertPure cur names lf ld)).Perm
      (leafPathsD cur ++ [(names ++ [lf], some ld)]) := by
  induction names generalizing cur with
  | nil =>
    cases cur with
    | mk n l lc a0 bs d s =>
      have hbs : bs ≠ [] := branches_ne_nil_of_incomp n l lc a0 bs d s _ h
      have hnames : ∀ b ∈ bs, b.name ≠ lf := by
        intro b hb heq
        have hbne := leafPathsD_ne_nil b
        rcases hx : leafPathsD b with _ | ⟨pd0, rest0⟩
        · exact hbne hx
        · have hmem : (b.name :: pd0.1, pd0.2) ∈ leafPathsD (PNode.mk n l lc a0 bs d s) := by
            rw [leafPathsD_mk_branches _ _ _ _ _ _ _ hbs]
            refine List.mem_flatMap.2 ⟨b, hb, ?_⟩
            rw [hx]
            exact List.mem_map_of_mem _ (List.mem_cons_self _ _)
          have h2 := h _ hmem
          rw [heq] at h2
          have h3 := h2.2
          simp [isAncPath] at h3
      rw [insertPure]
      simp only [PNode.branches]
      rw [if_neg (by
        simp only [List.any_eq_true, not_exists]
        rintro b ⟨hb, hbn⟩
        exact hnames b hb (by simpa using hbn))]
      rw [leafPathsD_mk_branches _ _ _ _ _ _ _ (by simp)]
      rw [List.flatMap_append]
      rw [flatMap_branches_eq n l lc a0 bs d s]
      rw [if_neg (by simp [List.isEmpty_iff, hbs])]
      rw [List.flatMap_cons, List.flatMap_nil]
      rw [leafPathsD_stamp_leaf]
      have hnm : (stampChild (PNode.mk n l lc a0 bs d s) (data_setup lf ld)).name = lf := rfl
      rw [hnm]
      simp
  | cons nm rest ih =>
    cases cur with
    | mk n l lc a0 bs d s =>
      have hbs : bs ≠ [] := branches_ne_nil_of_incomp n l lc a0 bs d s _ h
      rw [insertPure]
      simp only [PNode.branches]
      cases hf : findChildIdx bs nm with
      | none =>
        have hfresh := insertPure_fresh (nm :: rest) (PNode.mk n l lc a0 bs d s) lf ld
          (by
            simp only [PNode.branches, List.headD]
            exact (findChildIdx_none_iff bs nm).1 hf)
        rw [insertPure] at hfresh
        simp only [PNode.branches, hf] at hfresh
        rw [hfresh]
        rw [if_neg (by simp [List.isEmpty_iff, hbs])]
      | some ic =>
        obtain ⟨hlt, hget, hname⟩ := findChildIdx_some_spec bs nm ic hf
        have hchild : ∀ pd ∈ leafPathsD ic.2, incomp pd.1 (rest ++ [lf]) := by
          intro pd hpd
          have hmem : (nm :: pd.1, pd.2) ∈ leafPathsD (PNode.mk n l lc a0 bs d s) := by
            rw [leafPathsD_mk_branches _ _ _ _ _ _ _ hbs]
            refine List.mem_flatMap.2 ⟨ic.2, ?_, ?_⟩
            · rw [← hget]
              exact List.get_mem bs _ hlt
            · rw [hname]
              exact List.mem_map_of_mem _ hpd
          have h2 := h _ hmem
          rw [List.cons_append] at h2
          exact (incomp_cons nm _ _).1 h2
        have ihc := ih ic.2 hchild
        -- abbreviations
        have hgetE : bs[ic.1] = ic.2 := hget
        have hnmc : (insertPure ic.2 rest lf ld).name = nm := by
          rw [insertPure_name]; exact hname
        -- decompose the set
        rw [leafPathsD_mk_branches _ _ _ _ _ _ _ (by
          intro hnil
          have := congrArg List.length hnil
          rw [List.length_set] at this
          simp only [List.length_nil] at this
          omega)]
        rw [List.set_eq_take_cons_drop _ hlt]
        rw [List.flatMap_append, List.flatMap_cons]
        -- decompose the original branch list on the right
        conv_rhs =>
          rw [leafPathsD_mk_branches _ _ _ _ _ _ _ hbs]
          rw [show bs = bs.take ic.1 ++ bs[ic.1] :: bs.drop (ic.1 + 1) from by
            rw [← List.drop_eq_getElem_cons hlt, List.take_append_drop]]
          rw [List.flatMap_append, List.flatMap_cons]
        rw [hgetE]
        -- permutation of the changed child's contribution
        have hmap : ((leafPathsD (insertPure ic.2 rest lf ld)).map
              (fun pd => ((insertPure ic.2 rest lf ld).name :: pd.1, pd.2))).Perm
            ((leafPathsD ic.2).map (fun pd => (ic.2.name :: pd.1, pd.2))
              ++ [((nm :: rest) ++ [lf], some ld)]) := by
          rw [hnmc, hname]
          have := ihc.map (fun pd => (nm :: pd.1, pd.2))
          rw [List.map_append] at this
          simpa using this
        -- assemble
        rw [List.perm_iff_count]
        intro x
        have hcnt := hmap.count_eq x
        simp only [List.count_append] at hcnt ⊢
        omega

-- setting the element just past a prefix
theorem set_append_length {α : Type} (A B : List α) (v : α) :
    (A ++ B).set A.length v = A ++ B.set 0 v := by
  induction A with
  | nil => simp
  | cons a A ih => simp [List.set, ih]

-- filterMap id undoes a some-map
theorem filterMap_id_map_some {α : Type} (l : List α) : (l.map some).filterMap id = l := by
  induction l with
  | nil => rfl
  | cons x xs ih => simp [ih]

-- unfolding insertPure on a cons path, by child lookup result
theorem insertPure_cons_some {cur : PNode} {nm : String} (rest : List String) (lf : String)
    (ld : LeafData) {ic : Nat × PNode} (h : findChildIdx cur.branches nm = some ic) :
    insertPure cur (nm :: rest) lf ld = .mk cur.name cur.level cur.loc cur.attr
      (cur.branches.set ic.1 (insertPure ic.2 rest lf ld)) cur.data cur.source := by
  have he : insertPure cur (nm :: rest) lf ld =
      match findChildIdx cur.branches nm with
      | some ic => PNode.mk cur.name cur.level cur.loc cur.attr
           (cur.branches.set ic.1 (insertPure ic.2 rest lf ld)) cur.data cur.source
      | none => PNode.mk cur.name cur.level cur.loc cur.attr
           (cur.branches ++ [insertPure (stampChild cur (pedar_setup nm)) rest lf ld])
           cur.data cur.source := rfl
  rw [he, h]

theorem insertPure_cons_none {cur : PNode} {nm : String} (rest : List String) (lf : String)
    (ld : LeafData) (h : findChildIdx cur.branches nm = none) :
    insertPure cur (nm :: rest) lf ld = .mk cur.name cur.level cur.loc cur.attr
      (cur.branches ++ [insertPure (stampChild cur (pedar_setup nm)) rest lf ld])
      cur.data cur.source := by
  have he : insertPure cur (nm :: rest) lf ld =
      match findChildIdx cur.branches nm with
      | some ic => PNode.mk cur.name cur.level cur.loc cur.attr
           (cur.branches.set ic.1 (insertPure ic.2 rest lf ld)) cur.data cur.source
      | none => PNode.mk cur.name cur.level cur.loc cur.attr
           (cur.branches ++ [insertPure (stampChild cur (pedar_setup nm)) rest lf ld])
           cur.data cur.source := rfl
  rw [he, h]

-- a successful walkInsert is a pure insertion of the extracted composite
theorem walkInsert_ok_spec (lvl : Nat) (layout : List String) (hnd : layout.Nodup)
    (loc : List String) (ls : List String) :
    ∀ (k : Nat) (cur : PNode) (sh : LocMap) (d : Option LeafData)
      (cur' : PNode) (sh' : LocMap),
      (∀ (j : Nat) (hj : j < ls.length), ∃ hjj : k + 1 + j < layout.length,
          ls.get ⟨j, hj⟩ = layout.get ⟨k + 1 + j, hjj⟩) →
      (∀ (j : Nat) (hj : j < layout.length),
          dictGet sh (layout.get ⟨j, hj⟩) = some (lvl + j)) →
      walkInsert lvl layout d ls cur
        (List.replicate (lvl + 1 + k) none ++ (loc.drop (lvl + 1 + k)).map some) sh
        = .ok (cur', sh') →
      ∃ ld, d = some ld ∧
        cur' = insertPure cur ((loc.drop (lvl + 1 + k)).take ls.length)
                 (String.intercalate " - " (loc.drop (lvl + 1 + k + ls.length))) ld ∧
        (∀ (j : Nat) (hj : j < layout.length),
          dictGet sh' (layout.get ⟨j, hj⟩) = some (lvl + j)) := by
  induction ls with
  | nil =>
    intro k cur sh d cur' sh' hlay hsh hok
    rw [walkInsert] at hok
    have hfm : (List.replicate (lvl+1+k) (none : Option String)
        ++ (loc.drop (lvl+1+k)).map some).filterMap id = loc.drop (lvl+1+k) := by
      rw [List.filterMap_append, filterMap_id_map_some]
      simp
    rw [hfm] at hok
    cases d with
    | none => simp [orErr, error_bind] at hok
    | some ld =>
      simp only [orErr, ok_bind] at hok
      rw [add_branch] at hok
      refine ⟨ld, rfl, ?_, ?_⟩
      · simp only [List.length_nil, List.take_zero, Nat.add_zero]
        rw [insertPure]
        split at hok
        · rename_i hcond
          rw [ok_bind] at hok
          simp only [Except.ok.injEq, Prod.mk.injEq] at hok
          have hcond2 : (cur.branches.any fun b =>
              b.name = " - ".intercalate (List.drop (lvl+1+k) loc)) = true := hcond
          rw [if_pos hcond2]
          exact hok.1.symm
        · rename_i hcond
          rw [ok_bind] at hok
          simp only [Except.ok.injEq, Prod.mk.injEq] at hok
          have hcond2 : ¬ (cur.branches.any fun b =>
              b.name = " - ".intercalate (List.drop (lvl+1+k) loc)) = true := hcond
          rw [if_neg hcond2]
          exact hok.1.symm
      · split at hok <;>
        · rw [ok_bind] at hok
          simp only [Except.ok.injEq, Prod.mk.injEq] at hok
          intro j hj
          rw [← hok.2]
          exact dictGet_change_loc_map sh lvl layout hnd j hj
  | cons layer rest ih =>
    intro k cur sh d cur' sh' hlay hsh hok
    rw [walkInsert] at hok
    obtain ⟨hjj, hlayer⟩ := hlay 0 (by simp)
    have hidx : dictGet sh layer = some (lvl + 1 + k) := by
      have h0 := hsh (k + 1 + 0) hjj
      simp only [List.get] at hlayer
      rw [← hlayer] at h0
      rw [h0]
      congr 1
      omega
    rw [hidx] at hok
    simp only [orErr, ok_bind] at hok
    rcases hdrop : loc.drop (lvl+1+k) with _ | ⟨nm, tail⟩
    · rw [hdrop] at hok
      simp only [List.map_nil, List.append_nil] at hok
      rw [List.getElem?_eq_none (by simp)] at hok
      simp [orErr, error_bind] at hok
    · rw [hdrop] at hok
      have hget9 : (List.replicate (lvl+1+k) (none : Option String)
          ++ (nm :: tail).map some)[lvl+1+k]? = some (some nm) := by
        rw [List.getElem?_append_right (by simp)]
        simp
      rw [hget9] at hok
      simp only [orErr, ok_bind] at hok
      have hset : ((List.replicate (lvl+1+k) (none : Option String)
          ++ (nm :: tail).map some).set (lvl+1+k) none)
          = List.replicate (lvl+1+(k+1)) none ++ tail.map some := by
        have h1 := set_append_length (List.replicate (lvl+1+k) (none : Option String))
          ((nm :: tail).map some) none
        rw [List.length_replicate] at h1
        rw [h1]
        simp only [List.map_cons, List.set_cons_zero]
        rw [show lvl+1+(k+1) = (lvl+1+k)+1 from by omega, List.replicate_succ']
        simp
      rw [hset] at hok
      have htail : loc.drop (lvl+1+(k+1)) = tail := by
        have h2 : loc.drop (lvl+1+(k+1)) = (loc.drop (lvl+1+k)).drop 1 := by
          rw [List.drop_drop]
          congr 1
        rw [h2, hdrop]
        rfl
      have hlay' : ∀ (j : Nat) (hj : j < rest.length), ∃ hjj2 : (k+1) + 1 + j < layout.length,
          rest.get ⟨j, hj⟩ = layout.get ⟨(k+1) + 1 + j, hjj2⟩ := by
        intro j hj
        obtain ⟨hb, he⟩ := hlay (j+1) (by simpa using Nat.succ_lt_succ hj)
        refine ⟨by omega, ?_⟩
        simp only [List.get] at he
        rw [he]
        congr 1
        simp only [Fin.mk.injEq]
        omega
      cases hf : findChildIdx cur.branches nm with
      | some ic =>
        rw [hf] at hok
        simp only at hok
        cases hw : walkInsert lvl layout d rest ic.2
            (List.replicate (lvl+1+(k+1)) none ++ (loc.drop (lvl+1+(k+1))).map some) sh with
        | error e =>
          rw [htail] at hw
          rw [hw, error_bind] at hok
          cases hok
        | ok r =>
          have hw2 := hw
          rw [htail] at hw2
          rw [hw2, ok_bind] at hok
          simp only [Except.ok.injEq, Prod.mk.injEq] at hok
          have hw' : walkInsert lvl layout d rest ic.2
              (List.replicate (lvl+1+(k+1)) none ++ (loc.drop (lvl+1+(k+1))).map some) sh
              = .ok (r.1, r.2) := by rw [hw]
          obtain ⟨ld, hd, hr1, hshp⟩ := ih (k+1) ic.2 sh d r.1 r.2 hlay' hsh hw'
          refine ⟨ld, hd, ?_, ?_⟩
          · rw [← hok.1]
            simp only [List.length_cons, List.take_succ_cons]
            rw [insertPure_cons_some _ _ _ hf]
            rw [hr1, htail]
            have harith : lvl + 1 + (k+1) + rest.length = lvl + 1 + k + (rest.length + 1) := by
              omega
            rw [harith]
          · intro j hj
            rw [← hok.2]
            exact hshp j hj
      | none =>
        rw [hf] at hok
        simp only at hok
        have hsh1 : ∀ (j : Nat) (hj : j < layout.length),
            dictGet (change_loc_map sh lvl layout) (layout.get ⟨j, hj⟩) = some (lvl + j) :=
          fun j hj => dictGet_change_loc_map sh lvl layout hnd j hj
        cases hw : walkInsert lvl layout d rest
            (stampChild cur (pedar_setup nm))
            (List.replicate (lvl+1+(k+1)) none ++ (loc.drop (lvl+1+(k+1))).map some)
            (change_loc_map sh lvl layout) with
        | error e =>
          rw [htail] at hw
          rw [hw, error_bind] at hok
          cases hok
        | ok r =>
          have hw2 := hw
          rw [htail] at hw2
          rw [hw2, ok_bind] at hok
          simp only [Except.ok.injEq, Prod.mk.injEq] at hok
          have hw' : walkInsert lvl layout d rest (stampChild cur (pedar_setup nm))
              (List.replicate (lvl+1+(k+1)) none ++ (loc.drop (lvl+1+(k+1))).map some)
              (change_loc_map sh lvl layout) = .ok (r.1, r.2) := by rw [hw]
          obtain ⟨ld, hd, hr1, hshp⟩ := ih (k+1) (stampChild cur (pedar_setup nm))
            (change_loc_map sh lvl layout) d r.1 r.2 hlay' hsh1 hw'
          refine ⟨ld, hd, ?_, ?_⟩
          · rw [← hok.1]
            simp only [List.length_cons, List.take_succ_cons]
            rw [insertPure_cons_none _ _ _ hf]
            rw [hr1, htail]
            have harith : lvl + 1 + (k+1) + rest.length = lvl + 1 + k + (rest.length + 1) := by
              omega
            rw [harith]
          · intro j hj
            rw [← hok.2]
            exact hshp j hj

-- interior layout entries sit one position into the full layout
theorem layoutMid_get (layout : List String) (j : Nat)
    (hj : j < ((layout.drop 1).dropLast).length) :
    ∃ hjj : 0 + 1 + j < layout.length,
      ((layout.drop 1).dropLast).get ⟨j, hj⟩ = layout.get ⟨0 + 1 + j, hjj⟩ := by
  have h1 : ((layout.drop 1).dropLast).length = layout.length - 1 - 1 := by
    rw [List.length_dropLast, List.length_drop]
  have hjj : 0 + 1 + j < layout.length := by omega
  refine ⟨hjj, ?_⟩
  have h2 : j < (layout.drop 1).length := by
    rw [List.length_drop]; omega
  have h3 : 1 + j < layout.length := by omega
  have e1 : ((layout.drop 1).dropLast).get ⟨j, hj⟩ = (layout.drop 1).get ⟨j, h2⟩ := by
    simp [List.getElem_dropLast]
  have e2 : (layout.drop 1).get ⟨j, h2⟩ = layout.get ⟨1 + j, h3⟩ := by
    have h4 : (1 : Nat) + j = j + 1 := by omega
    simp [List.getElem_drop, h4]
  rw [e1, e2]

-- the restructure fold inserts, for each leaf, exactly its composite record
theorem restructure_fold (lvl : Nat) (layout : List String) (hnd : layout.Nodup) :
    ∀ (L : List PNode) (acc : PNode) (sh : LocMap)
      (done : List (List String × Option LeafData)) (res : PNode × LocMap),
      (∀ (j : Nat) (hj : j < layout.length),
          dictGet sh (layout.get ⟨j, hj⟩) = some (lvl + j)) →
      (if acc.branches.isEmpty then ([] : List (List String × Option LeafData))
        else leafPathsD acc).Perm done →
      List.Pairwise incomp (done.map Prod.fst
        ++ L.map (fun m => compositeOf lvl ((layout.drop 1).dropLast).length m.loc)) →
      L.foldlM (fun acc0 leaf => do
          let mloc ← maskLoc leaf.loc lvl
          walkInsert lvl layout leaf.data ((layout.drop 1).dropLast) acc0.1 mloc acc0.2)
        (acc, sh) = .ok res →
      ((if res.1.branches.isEmpty then ([] : List (List String × Option LeafData))
        else leafPathsD res.1).Perm
        (done ++ L.map (fun m =>
          (compositeOf lvl ((layout.drop 1).dropLast).length m.loc, m.data))) ∧
       (res.1.branches = [] → acc.branches = [] ∧ L = [])) := by
  intro L
  induction L with
  | nil =>
    intro acc sh done res hsh hperm hpw hok
    rw [List.foldlM_nil] at hok
    rw [pure_eq_ok] at hok
    simp only [Except.ok.injEq] at hok
    subst hok
    exact ⟨by simpa using hperm, fun h => ⟨h, rfl⟩⟩
  | cons leaf L ih =>
    intro acc sh done res hsh hperm hpw hok
    simp only [List.foldlM_cons] at hok
    rw [maskLoc] at hok
    split at hok
    · rw [error_bind, error_bind] at hok
      cases hok
    · rename_i hlen
      rw [ok_bind] at hok
      have hml : (leaf.loc.take (lvl+1)).map (fun _ => (none : Option String))
          = List.replicate (lvl+1) none := by
        rw [List.map_const']
        congr 1
        rw [List.length_take]
        omega
      rw [hml] at hok
      cases hw : walkInsert lvl layout leaf.data ((layout.drop 1).dropLast) acc
          (List.replicate (lvl+1) none ++ (leaf.loc.drop (lvl+1)).map some) sh with
      | error e =>
        rw [hw, error_bind] at hok
        cases hok
      | ok r =>
        rw [hw, ok_bind] at hok
        have hw0 : walkInsert lvl layout leaf.data ((layout.drop 1).dropLast) acc
            (List.replicate (lvl + 1 + 0) none
              ++ (leaf.loc.drop (lvl + 1 + 0)).map some) sh = .ok (r.1, r.2) := hw
        obtain ⟨ld, hld, hr1, hshp⟩ := walkInsert_ok_spec lvl layout hnd leaf.loc
          ((layout.drop 1).dropLast) 0 acc sh leaf.data r.1 r.2
          (fun j hj => layoutMid_get layout j hj) hsh hw0
        simp only [Nat.add_zero] at hr1
        have hcomp : ((leaf.loc.drop (lvl+1)).take ((layout.drop 1).dropLast).length)
            ++ [String.intercalate " - "
                 (leaf.loc.drop (lvl+1+((layout.drop 1).dropLast).length))]
            = compositeOf lvl ((layout.drop 1).dropLast).length leaf.loc := rfl
        have hbne := insertPure_branches_ne_nil acc
          ((leaf.loc.drop (lvl+1)).take ((layout.drop 1).dropLast).length)
          (String.intercalate " - "
            (leaf.loc.drop (lvl+1+((layout.drop 1).dropLast).length))) ld
        have hperm' : (if r.1.branches.isEmpty then
              ([] : List (List String × Option LeafData))
            else leafPathsD r.1).Perm
            (done ++ [(compositeOf lvl ((layout.drop 1).dropLast).length leaf.loc,
              leaf.data)]) := by
          rw [hr1]
          rw [if_neg (by simp only [List.isEmpty_iff]; exact hbne)]
          rcases hacc : acc.branches with _ | ⟨b0, bs0⟩
          · have hfresh := insertPure_fresh
              ((leaf.loc.drop (lvl+1)).take ((layout.drop 1).dropLast).length) acc
              (String.intercalate " - "
                (leaf.loc.drop (lvl+1+((layout.drop 1).dropLast).length))) ld
              (by rw [hacc]; intro b hb; cases hb)
            rw [hfresh, hacc]
            simp only [List.isEmpty_nil, if_true, List.nil_append]
            rw [hacc] at hperm
            simp only [List.isEmpty_nil, if_true] at hperm
            have hdone : done = [] := hperm.symm.eq_nil
            subst hdone
            rw [hcomp, hld]
            simp
          · have hperm2 : (leafPathsD acc).Perm done := by
              rw [hacc] at hperm
              simpa [hacc] using hperm
            have hincs : ∀ pd ∈ leafPathsD acc,
                incomp pd.1 (((leaf.loc.drop (lvl+1)).take ((layout.drop 1).dropLast).length)
                  ++ [String.intercalate " - "
                       (leaf.loc.drop (lvl+1+((layout.drop 1).dropLast).length))]) := by
              intro pd hpd
              have hpd2 : pd ∈ done := hperm2.mem_iff.1 hpd
              have hx : pd.1 ∈ done.map Prod.fst := List.mem_map_of_mem Prod.fst hpd2
              have hy : compositeOf lvl ((layout.drop 1).dropLast).length leaf.loc
                  ∈ (leaf :: L).map (fun m =>
                      compositeOf lvl ((layout.drop 1).dropLast).length m.loc) := by
                simp
              have := (List.pairwise_append.1 hpw).2.2 pd.1 hx _ hy
              rw [hcomp]
              exact this
            have hstep := insertPure_incomp
              ((leaf.loc.drop (lvl+1)).take ((layout.drop 1).dropLast).length) acc
              (String.intercalate " - "
                (leaf.loc.drop (lvl+1+((layout.drop 1).dropLast).length))) ld hincs
            refine hstep.trans ?_
            rw [hcomp, hld]
            exact hperm2.append (List.Perm.refl _)
        have hpw' : List.Pairwise incomp
            ((done ++ [(compositeOf lvl ((layout.drop 1).dropLast).length leaf.loc,
                leaf.data)]).map Prod.fst
              ++ L.map (fun m =>
                  compositeOf lvl ((layout.drop 1).dropLast).length m.loc)) := by
          rw [List.map_append]
          rw [List.append_assoc]
          rw [List.map_cons, List.map_nil, List.cons_append, List.nil_append]
          simp only [List.map_cons] at hpw
          exact hpw
        have hok2 : L.foldlM (fun acc0 leaf => do
            let mloc ← maskLoc leaf.loc lvl
            walkInsert lvl layout leaf.data ((layout.drop 1).dropLast) acc0.1 mloc acc0.2)
            (r.1, r.2) = .ok res := hok
        obtain ⟨hp, hb⟩ := ih r.1 r.2
          (done ++ [(compositeOf lvl ((layout.drop 1).dropLast).length leaf.loc, leaf.data)])
          res hshp hperm' hpw' hok2
        constructor
        · simp only [List.map_cons]
          rw [List.append_cons]
          exact hp
        · intro hres
          exact absurd (hr1 ▸ (hb hres).1) hbne


/-- C2 (amended): for every source tree and every layout without repeated
level names that `restructure` accepts, provided the leaves' composite
relative paths are pairwise prefix-incomparable, collecting the leaves of
the restructured tree yields, as a multiset, exactly the same leaf
payloads (table, start, stop) as collecting the leaves of the source —
no record dropped, duplicated or mutated.  (The counterexample
`restructure_drops_colliding_leaf` shows a colliding composite name is
silently dropped, so the incomparability proviso is necessary.) -/
theorem restructure_preserves_leaf_records (t : PNode) (layout : List String)
    (sh : LocMap) (t' : PNode) (sh' : LocMap)
    (hnd : layout.Nodup)
    (hpw : List.Pairwise incomp
      ((collect_leaf t).map (fun m =>
        compositeOf t.level ((layout.drop 1).dropLast).length m.loc)))
    (hok : restructure t layout sh = .ok (t', sh')) :
    ((collect_leaf t').map PNode.data).Perm ((collect_leaf t).map PNode.data) := by
  simp only [restructure] at hok
  obtain ⟨hp, hb⟩ := restructure_fold t.level layout hnd (collect_leaf t)
    (clean_copy t) (change_loc_map sh t.level layout) [] (t', sh')
    (fun j hj => dictGet_change_loc_map sh t.level layout hnd j hj)
    (by simp [clean_copy, PNode.branches])
    hpw
    hok
  have hbne : t'.branches ≠ [] := by
    intro h
    exact collect_leaf_ne_nil t (hb h).2
  rw [if_neg (by simp only [List.isEmpty_iff]; exact hbne)] at hp
  have hmap := hp.map Prod.snd
  rw [List.nil_append] at hmap
  rw [List.map_map] at hmap
  rw [collect_leaf_data_eq t']
  exact hmap

/-- C2 witness: the preservation statement at the concrete one-leaf tree
`tree_C3` with layout `(root, compress)` and the default loc map. -/
theorem restructure_preserves_leaf_records_witness :
    ((collect_leaf (PNode.mk "root" 0 ["root"] []
        [PNode.mk "S1" 1 ["root", "S1"] [] [] (some ld_1) (some ["root"])]
        none none)).map PNode.data).Perm
      ((collect_leaf tree_C3).map PNode.data) := by
  have hleaves : collect_leaf tree_C3 =
      [.mk "S1" 1 ["root", "S1"] [] [] (some ld_1) (some ["root"])] := by
    simp [collect_leaf_eq, tree_C3, PNode.branches]
  exact restructure_preserves_leaf_records tree_C3 ["root", "compress"] default_loc_map
    (.mk "root" 0 ["root"] []
      [.mk "S1" 1 ["root", "S1"] [] [] (some ld_1) (some ["root"])] none none)
    [("root", 0), ("compress", 1)]
    (by decide)
    (by rw [hleaves]; simp)
    (by simp only [restructure]; rw [hleaves]; rfl)
